import Mathlib

/-!
Shallow embedding of the DBF codec in src/old_ddf_ex.py: the generator
dbfreader (decode a byte stream into field names, field specs and live
records) and dbfwriter (encode names, specs and records into a byte
stream).  Bytes are modelled as List Nat (each < 256 where produced),
Python str values as List Char, and every fallible Python operation as
an Except computation.  Python 3 semantics are modelled, including the
bytes-versus-str distinction.
-/

/-- Failure kinds of the Python code.  malformedHeader stands for the
terminator assert and for struct.error on a truncated read; encodingError
for a failed .decode of .encode as ascii and for malformed numeric, date
or float text (ValueError during decode); fieldValueTooWide for the
assert len(value) == size in dbfwriter; typeError for the Python 3
TypeError raised when bytes are the left operand of in against a str;
valueError for out-of-range struct.pack arguments, an invalid calendar
date, and indexing an empty string. -/
inductive PyErr where
  | malformedHeader
  | encodingError
  | fieldValueTooWide
  | typeError
  | valueError
deriving DecidableEq

/-- Byte strings: lists of natural numbers (values < 256 where the code
produces them). -/
abbrev Bytes := List Nat

/-- Python bytes.decode of ascii: every byte must be < 128. -/
def decodeAscii : Bytes → Except PyErr (List Char)
  | [] => Except.ok []
  | b :: bs =>
      if b < 128 then do
        let s ← decodeAscii bs
        Except.ok (Char.ofNat b :: s)
      else Except.error PyErr.encodingError

/-- Python str.encode of ascii: every character must be < 128. -/
def encodeAscii : List Char → Except PyErr Bytes
  | [] => Except.ok []
  | c :: s =>
      if c.toNat < 128 then do
        let bs ← encodeAscii s
        Except.ok (c.toNat :: bs)
      else Except.error PyErr.encodingError

/-- Python str whitespace test restricted to the ASCII range, the only
characters that can appear after an ascii decode: space, tab, newline,
vertical tab, form feed, carriage return, and the separator control
characters 0x1C to 0x1F, which str.strip and str.lstrip also strip. -/
def isWsCh (c : Char) : Bool :=
  c.toNat == 32 || (9 ≤ c.toNat && c.toNat ≤ 13) || (28 ≤ c.toNat && c.toNat ≤ 31)

/-- Python str.lstrip with no argument: drop leading whitespace. -/
def pyLstrip (s : List Char) : List Char := s.dropWhile isWsCh

/-- Python str.rstrip with no argument: drop trailing whitespace. -/
def pyRstrip (s : List Char) : List Char := (s.reverse.dropWhile isWsCh).reverse

/-- Python str.strip with no argument: drop whitespace at both ends. -/
def pyStrip (s : List Char) : List Char := pyRstrip (pyLstrip s)

/-- Python str.replace of the NUL character by the empty string. -/
def removeNuls (s : List Char) : List Char := s.filter (fun c => c.toNat != 0)

/-- Decimal digit test (ASCII 48 to 57). -/
def isDigitCh (c : Char) : Bool := 48 ≤ c.toNat && c.toNat ≤ 57

/-- Character of a decimal digit value. -/
def dChar (d : Nat) : Char := Char.ofNat (48 + d)

/-- Digit value of a character. -/
def dVal (c : Char) : Nat := c.toNat - 48

/-- Value of a big-endian list of decimal digit characters. -/
def digitsVal (s : List Char) : Nat := s.foldl (fun a c => a * 10 + dVal c) 0

/-- Decimal digit characters of n (most significant first), by fuel
recursion; empty for 0 and for exhausted fuel. -/
def natStrAux : Nat → Nat → List Char
  | 0, _ => []
  | _, 0 => []
  | fuel + 1, n + 1 => natStrAux fuel ((n + 1) / 10) ++ [dChar ((n + 1) % 10)]

/-- Python str of a natural number: standard decimal notation. -/
def natStr (n : Nat) : List Char := if n = 0 then ['0'] else natStrAux n n

/-- Python str of an int: optional minus sign followed by the digits. -/
def intStr (i : Int) : List Char := if i < 0 then '-' :: natStr i.natAbs else natStr i.toNat

/-- Python int applied to a str: strip whitespace, optional single sign,
then a nonempty run of decimal digits.  Underscore digit separators,
accepted by Python since 3.6, are not modelled; no input in this
development contains them. -/
def parseIntBody (sign : Bool) (u : List Char) : Except PyErr Int :=
  if u ≠ [] ∧ u.all isDigitCh then
    Except.ok (if sign then -(digitsVal u : Int) else (digitsVal u : Int))
  else Except.error PyErr.encodingError

def parseInt (s : List Char) : Except PyErr Int :=
  match pyStrip s with
  | [] => Except.error PyErr.encodingError
  | c :: rest =>
      if c = '-' then parseIntBody true rest
      else if c = '+' then parseIntBody false rest
      else parseIntBody false (c :: rest)

/-- Python decimal.Decimal value: sign, coefficient (a natural number,
which is exactly the leading-zero-stripped digit string of the decimal
specification) and exponent; the denoted value is
(-1)^sign * coeff * 10^exponent. -/
structure PyDecimal where
  sign : Bool
  coeff : Nat
  exponent : Int
deriving DecidableEq

/-- Exponent suffix of a decimal numeric string: optional e or E with an
optional sign and a nonempty digit run; empty input means exponent 0. -/
def parseDecExp (s : List Char) : Except PyErr Int :=
  match s with
  | [] => Except.ok 0
  | e :: rest =>
      if e = 'e' ∨ e = 'E' then
        match rest with
        | [] => Except.error PyErr.encodingError
        | c :: ds =>
            if c = '-' then
              if ds ≠ [] ∧ ds.all isDigitCh then Except.ok (-(digitsVal ds : Int))
              else Except.error PyErr.encodingError
            else if c = '+' then
              if ds ≠ [] ∧ ds.all isDigitCh then Except.ok (digitsVal ds : Int)
              else Except.error PyErr.encodingError
            else
              if (c :: ds).all isDigitCh then Except.ok (digitsVal (c :: ds) : Int)
              else Except.error PyErr.encodingError
      else Except.error PyErr.encodingError

/-- Unsigned part of a decimal numeric string: digits, an optional point
with further digits, and an optional exponent part; at least one digit
must be present around the point. -/
def parseDecNoDot (sign : Bool) (ip r1 : List Char) : Except PyErr PyDecimal :=
  if ip = [] then Except.error PyErr.encodingError
  else do
    let e ← parseDecExp r1
    Except.ok ⟨sign, digitsVal ip, e⟩

def parseDecBody (sign : Bool) (s : List Char) : Except PyErr PyDecimal :=
  let ip := s.takeWhile isDigitCh
  let r1 := s.dropWhile isDigitCh
  match r1 with
  | [] => parseDecNoDot sign ip []
  | c :: r2 =>
      if c = '.' then
        let fp := r2.takeWhile isDigitCh
        let r3 := r2.dropWhile isDigitCh
        if ip = [] ∧ fp = [] then Except.error PyErr.encodingError
        else do
          let e ← parseDecExp r3
          Except.ok ⟨sign, digitsVal (ip ++ fp), e - fp.length⟩
      else parseDecNoDot sign ip (c :: r2)

/-- Python decimal.Decimal applied to a str: strip whitespace, optional
sign, then a decimal numeric string.  The special values NaN and
Infinity, and underscore separators, are not modelled; no input in this
development contains them. -/
def parseDecimalText (s : List Char) : Except PyErr PyDecimal :=
  match pyStrip s with
  | [] => parseDecBody false []
  | c :: rest =>
      if c = '-' then parseDecBody true rest
      else if c = '+' then parseDecBody false rest
      else parseDecBody false (c :: rest)

/-- Python str of a Decimal, following the to-scientific-string rules of
the decimal specification: plain notation when the exponent is at most 0
and the adjusted exponent is at least -6, scientific notation
otherwise. -/
def pyDecimalStr (d : PyDecimal) : List Char :=
  let ds := natStr d.coeff
  let sgn : List Char := if d.sign then ['-'] else []
  let leftdigits : Int := d.exponent + ds.length
  if d.exponent ≤ 0 ∧ -6 < leftdigits then
    if d.exponent = 0 then sgn ++ ds
    else if 0 < leftdigits then
      sgn ++ ds.take leftdigits.toNat ++ '.' :: ds.drop leftdigits.toNat
    else
      sgn ++ '0' :: '.' :: List.replicate (-leftdigits).toNat '0' ++ ds
  else
    let expv : Int := leftdigits - 1
    let tail : List Char := if ds.length ≤ 1 then [] else '.' :: ds.drop 1
    let esgn : List Char := if expv < 0 then ['-'] else ['+']
    sgn ++ ds.take 1 ++ tail ++ 'E' :: esgn ++ natStr expv.natAbs

/-- Typed field values as produced by decode and consumed by encode:
Python int, decimal.Decimal, datetime.date (year, month, day), str, and
float.  The float carrier stores the exact decimal value of the parsed
literal; IEEE binary64 rounding is not modelled, and no theorem below
depends on the float branch. -/
inductive PyVal where
  | int (i : Int)
  | dec (d : PyDecimal)
  | date (y m d : Nat)
  | text (s : List Char)
  | float (d : PyDecimal)
deriving DecidableEq

/-- Leap year rule of the proleptic Gregorian calendar used by
datetime.date. -/
def isLeap (y : Nat) : Bool := (y % 4 == 0 && y % 100 != 0) || y % 400 == 0

/-- Days in a month of a year, as validated by datetime.date. -/
def daysInMonth (y m : Nat) : Nat :=
  if m = 2 then (if isLeap y then 29 else 28)
  else if m = 4 ∨ m = 6 ∨ m = 9 ∨ m = 11 then 30
  else 31

/-- Validity of the arguments of the datetime.date constructor. -/
def okDate (y m d : Int) : Prop :=
  1 ≤ y ∧ y ≤ 9999 ∧ 1 ≤ m ∧ m ≤ 12 ∧ 1 ≤ d ∧ d ≤ daysInMonth y.toNat m.toNat

instance (y m d : Int) : Decidable (okDate y m d) := by
  unfold okDate; infer_instance

/-- The datetime.date constructor: range-checks its arguments and raises
ValueError (mapped to encodingError following the error grouping of the
spec, which files malformed dates under decode errors) when they do not
form a calendar date. -/
def mkDate (y m d : Int) : Except PyErr PyVal :=
  if okDate y m d then Except.ok (PyVal.date y.toNat m.toNat d.toNat)
  else Except.error PyErr.encodingError

/-- Field descriptor payload as stored in a spec tuple of the source:
type tag character, byte length, decimal count. -/
structure FieldSpec where
  typ : Char
  size : Nat
  deci : Nat
deriving DecidableEq

/-- Decode of a numeric field (source lines 47 to 54): decode ascii,
remove NULs, strip leading whitespace; empty means integer 0, a nonzero
decimal count means Decimal text, otherwise int text. -/
def decodeNumeric (deci : Nat) (raw : Bytes) : Except PyErr PyVal := do
  let s ← decodeAscii raw
  let t := pyLstrip (removeNuls s)
  if t = [] then Except.ok (PyVal.int 0)
  else if deci ≠ 0 then do
    let d ← parseDecimalText t
    Except.ok (PyVal.dec d)
  else do
    let i ← parseInt t
    Except.ok (PyVal.int i)

/-- Decode of a date field (source lines 55 to 58): decode ascii, take
int of the slices [:4], [4:6], [6:8], then build a datetime.date. -/
def decodeDate (raw : Bytes) : Except PyErr PyVal := do
  let s ← decodeAscii raw
  let y ← parseInt (s.take 4)
  let m ← parseInt ((s.drop 4).take 2)
  let d ← parseInt ((s.drop 6).take 2)
  mkDate y m d

/-- Decode of a logical field (source line 60).  The first test decodes
the bytes and asks whether the result is a substring of the str YyTt
(Python in on str is substring containment, so the empty string also
passes); when it fails, the source evaluates the raw bytes as the left
operand of in against the str NnFf, which in Python 3 raises TypeError,
so the F and Unknown outcomes are unreachable. -/
def decodeLogical (raw : Bytes) : Except PyErr PyVal := do
  let s ← decodeAscii raw
  if s <:+: ['Y', 'y', 'T', 't'] then Except.ok (PyVal.text ['T'])
  else Except.error PyErr.typeError

/-- Decode of a float field (source line 62): decode ascii and parse a
float literal; the exact decimal value is stored, IEEE rounding is not
modelled (no theorem depends on this branch). -/
def decodeFloat (raw : Bytes) : Except PyErr PyVal := do
  let s ← decodeAscii raw
  let d ← parseDecimalText s
  Except.ok (PyVal.float d)

/-- Decode of one field according to its type tag (source lines 47 to
64); tags other than N, D, L, F decode as stripped text. -/
def decodeField (spec : FieldSpec) (raw : Bytes) : Except PyErr PyVal :=
  if spec.typ = 'N' then decodeNumeric spec.deci raw
  else if spec.typ = 'D' then decodeDate raw
  else if spec.typ = 'L' then decodeLogical raw
  else if spec.typ = 'F' then decodeFloat raw
  else do
    let s ← decodeAscii raw
    Except.ok (PyVal.text (pyStrip s))

/-- Python str applied to a field value: int repr, Decimal repr, the ISO
form of a date, the text itself, and the Decimal repr for the float
carrier (only reachable for values the theorems below never use). -/
def pyStrOfVal : PyVal → List Char
  | PyVal.int i => intStr i
  | PyVal.dec d => pyDecimalStr d
  | PyVal.date y m d =>
      natStr y ++ '-' :: (List.replicate (2 - (natStr m).length) '0' ++ natStr m)
        ++ '-' :: (List.replicate (2 - (natStr d).length) '0' ++ natStr d)
  | PyVal.text s => s
  | PyVal.float d => pyDecimalStr d

/-- Python str.rjust with the space fill character. -/
def rjustSp (n : Nat) (s : List Char) : List Char :=
  List.replicate (n - s.length) ' ' ++ s

/-- Python str.ljust with the space fill character. -/
def ljustSp (n : Nat) (s : List Char) : List Char :=
  s ++ List.replicate (n - s.length) ' '

/-- Python str.upper restricted to one ASCII character, the only case
the theorems below exercise: ASCII lowercase letters map to uppercase
and every other ASCII character to itself.  Full Python upper can
expand a non-ASCII character to several (the sharp s becomes SS), so
every theorem about the logical branch carries an ASCII hypothesis on
the character it uppercases. -/
def pyUpper (c : Char) : Char :=
  if 97 ≤ c.toNat ∧ c.toNat ≤ 122 then Char.ofNat (c.toNat - 32) else c

/-- Zero-padded decimal text of width k, as used by strftime. -/
def padZ (k n : Nat) : List Char :=
  List.replicate (k - (natStr n).length) '0' ++ natStr n

/-- Python date.strftime of the format YYYYMMDD (source line 110), as
the platform C library renders it on Linux: the month and day are
zero-padded to two digits, the year is written as plain decimal with no
padding (so years below 1000 give fewer than eight bytes in total,
matching glibc, where date(5,1,2) renders as 50102). -/
def strftimeYmd (y m d : Nat) : List Char := natStr y ++ padZ 2 m ++ padZ 2 d

/-- Per-type value encoding of dbfwriter before the width assert (source
lines 107 to 114): numeric values are right-justified in spaces, dates
become YYYYMMDD, logicals the uppercased first character of the str (an
empty str would raise IndexError, and a non-date value in a date field
AttributeError on strftime; both are mapped to valueError here), and
everything else is truncated to the size and left-justified. -/
def encodeFieldRaw (spec : FieldSpec) (v : PyVal) : Except PyErr Bytes :=
  if spec.typ = 'N' then encodeAscii (rjustSp spec.size (pyStrOfVal v))
  else if spec.typ = 'D' then
    match v with
    | PyVal.date y m d => encodeAscii (strftimeYmd y m d)
    | _ => Except.error PyErr.valueError
  else if spec.typ = 'L' then
    match pyStrOfVal v with
    | [] => Except.error PyErr.valueError
    | c :: _ => encodeAscii [pyUpper c]
  else encodeAscii (ljustSp spec.size ((pyStrOfVal v).take spec.size))

/-- One encoded field of dbfwriter: the per-type encoding followed by
the assert len(value) == size (source line 115), modelled as
fieldValueTooWide. -/
def encodeField (spec : FieldSpec) (v : PyVal) : Except PyErr Bytes := do
  let raw ← encodeFieldRaw spec v
  if raw.length = spec.size then Except.ok raw
  else Except.error PyErr.fieldValueTooWide

/-- struct.pack of one unsigned byte (format B): range-checked. -/
def packB (n : Nat) : Except PyErr Bytes :=
  if n < 256 then Except.ok [n] else Except.error PyErr.valueError

/-- struct.pack of one byte given as a character (format c): the source
passes typ.encode of ascii, which must be a single ascii byte. -/
def packC (t : Char) : Except PyErr Bytes :=
  if t.toNat < 128 then Except.ok [t.toNat] else Except.error PyErr.encodingError

/-- struct.pack of a little-endian unsigned 16-bit value (format H). -/
def packLE2 (n : Nat) : Except PyErr Bytes :=
  if n < 65536 then Except.ok [n % 256, n / 256] else Except.error PyErr.valueError

/-- struct.pack of a little-endian unsigned 32-bit value (format L). -/
def packLE4 (n : Nat) : Except PyErr Bytes :=
  if n < 4294967296 then
    Except.ok [n % 256, n / 256 % 256, n / 65536 % 256, n / 16777216]
  else Except.error PyErr.valueError

/-- The 32-byte header written by dbfwriter (source line 91): format
BBBBLHH20x with version 3, the date bytes, record count, header length
and record length. -/
def packHeader (yr mon day numrec lenheader lenrecord : Nat) : Except PyErr Bytes := do
  let v ← packB 3
  let a ← packB yr
  let b ← packB mon
  let c ← packB day
  let r ← packLE4 numrec
  let h ← packLE2 lenheader
  let l ← packLE2 lenrecord
  Except.ok (v ++ a ++ b ++ c ++ r ++ h ++ l ++ List.replicate 20 0)

/-- Python str.ljust with the NUL fill character (source line 96). -/
def ljustNul (n : Nat) (s : List Char) : List Char :=
  s ++ List.replicate (n - s.length) (Char.ofNat 0)

/-- One 32-byte field descriptor written by dbfwriter (source lines 95
to 98): the name NUL-padded to 11 and ascii-encoded, then packed with
format 11s, which truncates to 11 bytes or pads with NULs (struct.pack
raises no error for long names); one type-tag byte (format c needs
exactly one byte, so the tag is a single ascii character here); 4 zero
bytes; the length byte; the decimal-count byte; 14 zero bytes. -/
def packDescriptor (name : List Char) (spec : FieldSpec) : Except PyErr Bytes := do
  let nb ← encodeAscii (ljustNul 11 name)
  let nb11 := nb.take 11 ++ List.replicate (11 - nb.length) 0
  let tb ← packC spec.typ
  let sb ← packB spec.size
  let db ← packB spec.deci
  Except.ok (nb11 ++ tb ++ List.replicate 4 0 ++ sb ++ db ++ List.replicate 14 0)

/-- Field-by-field encoding loop of one record, in write order. -/
def encodeFieldsW : List (FieldSpec × PyVal) → Except PyErr Bytes
  | [] => Except.ok []
  | (spec, v) :: t => do
      let b ← encodeField spec v
      let r ← encodeFieldsW t
      Except.ok (b ++ r)

/-- One encoded record of dbfwriter (source lines 104 to 116): a space
deletion flag, then each field of zip(fieldspecs, record) encoded and
width-checked. -/
def encodeRecord (specs : List FieldSpec) (record : List PyVal) : Except PyErr Bytes := do
  let fs ← encodeFieldsW (specs.zip record)
  Except.ok (32 :: fs)

/-- Sum of the declared field sizes of a spec list. -/
def sumSizes (specs : List FieldSpec) : Nat := (specs.map (fun s => s.size)).sum

/-- Descriptor-writing loop of dbfwriter, in write order over
zip(fieldnames, fieldspecs). -/
def packDescriptors : List (List Char × FieldSpec) → Except PyErr Bytes
  | [] => Except.ok []
  | (name, spec) :: t => do
      let d ← packDescriptor name spec
      let r ← packDescriptors t
      Except.ok (d ++ r)

/-- Record-writing loop of dbfwriter, in write order. -/
def encodeRecords (specs : List FieldSpec) : List (List PyVal) → Except PyErr Bytes
  | [] => Except.ok []
  | r :: rs => do
      let b ← encodeRecord specs r
      let bs ← encodeRecords specs rs
      Except.ok (b ++ bs)

/-- The writer dbfwriter (source lines 82 to 119) as a pure function
from the date bytes it would take from datetime.now and the three
logical inputs to the complete byte image: header, descriptors for
zip(fieldnames, fieldspecs), the 0x0D terminator, the encoded records
and the 0x1A end marker.  Python writes to the sink as it goes, so a
failure can leave partial output; only the all-or-nothing value is
modelled, which is what every claim observes. -/
def dbfwriter (yr mon day : Nat) (fieldnames : List (List Char))
    (fieldspecs : List FieldSpec) (records : List (List PyVal)) : Except PyErr Bytes := do
  let numrec := records.length
  let lenheader := fieldspecs.length * 32 + 33
  let lenrecord := sumSizes fieldspecs + 1
  let hdr ← packHeader yr mon day numrec lenheader lenrecord
  let descs ← packDescriptors (fieldnames.zip fieldspecs)
  let recs ← encodeRecords fieldspecs records
  Except.ok (hdr ++ descs ++ [13] ++ recs ++ [26])

/-- Little-endian value of the first four bytes of a list (used on an
exactly-sized slice). -/
def readU32LE (bs : Bytes) : Nat :=
  bs.getD 0 0 + 256 * bs.getD 1 0 + 65536 * bs.getD 2 0 + 16777216 * bs.getD 3 0

/-- Little-endian value of the first two bytes of a list. -/
def readU16LE (bs : Bytes) : Nat := bs.getD 0 0 + 256 * bs.getD 1 0

/-- Header parse of dbfreader (source line 20): f.read the first 32
bytes and unpack with format xxxxLH22x; a stream shorter than 32 bytes
makes struct.unpack raise (modelled malformedHeader); the record count
sits at offset 4 and the header length at offset 8. -/
def parseHeader (bs : Bytes) : Except PyErr (Nat × Nat × Bytes) :=
  if bs.length < 32 then Except.error PyErr.malformedHeader
  else Except.ok (readU32LE (bs.drop 4), readU16LE (bs.drop 8), bs.drop 32)

/-- Field count of dbfreader (source line 21): the Python floor division
(lenheader - 33) // 32 over ints, then used as a range bound, where a
negative value yields an empty range. -/
def numfieldsOf (lenheader : Nat) : Nat := (((lenheader : Int) - 33).fdiv 32).toNat

/-- Decode of the type-tag byte as ascii (part of line 25 to 27 of the
source: the tag byte is decoded like the name). -/
def decodeTagByte (b : Nat) : Except PyErr Char :=
  if b < 128 then Except.ok (Char.ofNat b) else Except.error PyErr.encodingError

/-- Descriptor parse loop of dbfreader (source lines 24 to 27): for each
field read 32 bytes and unpack with format 11sc4xBB14x, decode the name
as ascii and delete every NUL, decode the tag byte as ascii; offsets 16
and 17 hold the length and the decimal count. -/
def parseDescriptors : Nat → Bytes → Except PyErr (List (List Char × FieldSpec) × Bytes)
  | 0, bs => Except.ok ([], bs)
  | n + 1, bs =>
      if bs.length < 32 then Except.error PyErr.malformedHeader
      else do
        let blk := bs.take 32
        let nameChars ← decodeAscii (blk.take 11)
        let name := removeNuls nameChars
        let typ ← decodeTagByte (blk.getD 11 0)
        let (rest, r) ← parseDescriptors n (bs.drop 32)
        Except.ok ((name, ⟨typ, blk.getD 16 0, blk.getD 17 0⟩) :: rest, r)

/-- Terminator check of dbfreader (source lines 32 and 33): f.read one
byte and assert it equals 0x0D; at end of stream the read returns the
empty bytes, which also fails the assert. -/
def checkTerminator (bs : Bytes) : Except PyErr Bytes :=
  match bs with
  | [] => Except.error PyErr.malformedHeader
  | b :: r => if b = 13 then Except.ok r else Except.error PyErr.malformedHeader

/-- The name of the pseudo-field the reader inserts in front of the
parsed fields (source line 35). -/
def dfName : List Char := ['D', 'e', 'l', 'e', 't', 'i', 'o', 'n', 'F', 'l', 'a', 'g']

/-- The spec of the inserted deletion-flag pseudo-field. -/
def dfSpec : FieldSpec := ⟨'C', 1, 0⟩

/-- Per-record field decode of dbfreader (source lines 43 to 65): the
slot bytes are cut into consecutive slices of the declared sizes
(struct.unpack with the computed format), and each field whose name is
not DeletionFlag is decoded by type; the source skips by name, so a user
field literally named DeletionFlag would be skipped too. -/
def decodeFields : List (List Char × FieldSpec) → Bytes → Except PyErr (List PyVal)
  | [], _ => Except.ok []
  | (name, spec) :: fs, bs =>
      let piece := bs.take spec.size
      let rest := bs.drop spec.size
      if name = dfName then decodeFields fs rest
      else do
        let v ← decodeField spec piece
        let vs ← decodeFields fs rest
        Except.ok (v :: vs)

/-- Total byte size of one record slot for a field list (the struct
calcsize of the computed format, source line 37). -/
def recSize (fields : List (List Char × FieldSpec)) : Nat :=
  (fields.map (fun p => p.2.size)).sum

/-- Record loop of dbfreader (source lines 39 to 66): numrec iterations;
each reads recSize bytes (a short read makes struct.unpack raise), looks
at the first unpacked piece - the slice of the first field, the inserted
deletion flag of size 1 - and skips the slot without error when it is
not the single space byte; otherwise the fields are decoded and the
record is appended.  An empty field list cannot happen inside dbfreader;
record[0] would raise IndexError there (valueError). -/
def recordLoop (fields : List (List Char × FieldSpec)) : Nat → Bytes → Except PyErr (List (List PyVal))
  | 0, _ => Except.ok []
  | n + 1, bs =>
      if bs.length < recSize fields then Except.error PyErr.malformedHeader
      else
        match fields with
        | [] => Except.error PyErr.valueError
        | f0 :: _ =>
            let slot := bs.take (recSize fields)
            let rest := bs.drop (recSize fields)
            if slot.take f0.2.size ≠ [32] then recordLoop fields n rest
            else do
              let r ← decodeFields fields slot
              let rs ← recordLoop fields n rest
              Except.ok (r :: rs)

/-- The reader dbfreader (source lines 17 to 66) as a pure function of
the byte stream, returning what list(dbfreader(f)) would hold, split
into the two schema rows and the record rows: the field names, the spec
tuples, and one value list per live record.  An exception anywhere
makes the whole result that error, which is what a list(...) consumer
observes.  Bytes after the consumed records (the 0x1A end marker) are
never read. -/
def dbfreader (bs : Bytes) :
    Except PyErr (List (List Char) × List FieldSpec × List (List PyVal)) := do
  let (numrec, lenheader, r1) ← parseHeader bs
  let (fields, r2) ← parseDescriptors (numfieldsOf lenheader) r1
  let r3 ← checkTerminator r2
  let recs ← recordLoop ((dfName, dfSpec) :: fields) numrec r3
  Except.ok (fields.map Prod.fst, fields.map Prod.snd, recs)

/-- Decidable equality on Except, used to evaluate concrete runs of the
codec inside proofs. -/
instance exceptDecEq {ε α : Type} [DecidableEq ε] [DecidableEq α] :
    DecidableEq (Except ε α) := fun x y =>
  match x, y with
  | Except.ok a, Except.ok b =>
      match decEq a b with
      | isTrue h => isTrue (by rw [h])
      | isFalse h => isFalse (fun hh => h (Except.ok.inj hh))
  | Except.ok _, Except.error _ => isFalse (fun hh => Except.noConfusion hh)
  | Except.error _, Except.ok _ => isFalse (fun hh => Except.noConfusion hh)
  | Except.error e, Except.error f =>
      match decEq e f with
      | isTrue h => isTrue (by rw [h])
      | isFalse h => isFalse (fun hh => h (Except.error.inj hh))

theorem toNat_charOfNat {n : Nat} (h : n < 55296) : (Char.ofNat n).toNat = n := by
  rw [Char.ofNat, dif_pos (Or.inl h)]
  rfl

theorem encodeAscii_eq_ok {s : List Char} (h : ∀ c ∈ s, c.toNat < 128) :
    encodeAscii s = Except.ok (s.map Char.toNat) := by
  induction s with
  | nil => rfl
  | cons c t ih =>
      have hc : c.toNat < 128 := h c (List.mem_cons_self c t)
      have ht := ih (fun x hx => h x (List.mem_cons_of_mem c hx))
      simp only [encodeAscii, hc, if_pos, ht]
      rfl

theorem decodeAscii_eq_ok {bs : Bytes} (h : ∀ b ∈ bs, b < 128) :
    decodeAscii bs = Except.ok (bs.map Char.ofNat) := by
  induction bs with
  | nil => rfl
  | cons b t ih =>
      have hb : b < 128 := h b (List.mem_cons_self b t)
      have ht := ih (fun x hx => h x (List.mem_cons_of_mem b hx))
      simp only [decodeAscii, hb, if_pos, ht]
      rfl

theorem decodeAscii_map_toNat {s : List Char} (h : ∀ c ∈ s, c.toNat < 128) :
    decodeAscii (s.map Char.toNat) = Except.ok s := by
  rw [decodeAscii_eq_ok (by simpa using h)]
  simp [Function.comp_def, Char.ofNat_toNat]

theorem digitsValFrom (a : Nat) (l : List Char) :
    l.foldl (fun x c => x * 10 + dVal c) a = a * 10 ^ l.length + digitsVal l := by
  induction l generalizing a with
  | nil => simp [digitsVal]
  | cons c t ih =>
      have h1 := ih (a * 10 + dVal c)
      have h2 := ih (dVal c)
      have hv : digitsVal (c :: t) = dVal c * 10 ^ t.length + digitsVal t := by
        simp only [digitsVal, List.foldl_cons]
        simpa using h2
      simp only [List.foldl_cons, h1, hv, List.length_cons, pow_succ]
      ring

theorem digitsVal_append (l1 l2 : List Char) :
    digitsVal (l1 ++ l2) = digitsVal l1 * 10 ^ l2.length + digitsVal l2 := by
  simp only [digitsVal, List.foldl_append]
  exact digitsValFrom _ _

theorem toNat_dChar {d : Nat} (h : d < 10) : (dChar d).toNat = 48 + d :=
  toNat_charOfNat (by omega)

theorem dVal_dChar {d : Nat} (h : d < 10) : dVal (dChar d) = d := by
  simp [dVal, toNat_dChar h]

theorem isDigitCh_dChar {d : Nat} (h : d < 10) : isDigitCh (dChar d) = true := by
  simp only [isDigitCh, toNat_dChar h, Bool.and_eq_true, decide_eq_true_eq]
  omega

theorem natStrAux_all_digit :
    ∀ f n, ∀ c ∈ natStrAux f n, isDigitCh c = true := by
  intro f
  induction f with
  | zero => intro n c hc; simp [natStrAux] at hc
  | succ f ih =>
      intro n c hc
      match n with
      | 0 => simp [natStrAux] at hc
      | n + 1 =>
          simp only [natStrAux, List.mem_append, List.mem_singleton] at hc
          rcases hc with hc | hc
          · exact ih _ c hc
          · subst hc; exact isDigitCh_dChar (Nat.mod_lt _ (by omega))

theorem digitsVal_natStrAux :
    ∀ f n, n < 10 ^ f → digitsVal (natStrAux f n) = n := by
  intro f
  induction f with
  | zero => intro n h; interval_cases n; rfl
  | succ f ih =>
      intro n h
      match n with
      | 0 => rfl
      | n + 1 =>
          have hq : (n + 1) / 10 < 10 ^ f := by
            rw [Nat.div_lt_iff_lt_mul (by omega)]
            calc n + 1 < 10 ^ (f + 1) := h
              _ = 10 ^ f * 10 := by ring
          have hr : (n + 1) % 10 < 10 := Nat.mod_lt _ (by omega)
          simp only [natStrAux, digitsVal_append, ih _ hq]
          have : digitsVal [dChar ((n + 1) % 10)] = (n + 1) % 10 := by
            simp only [digitsVal, List.foldl_cons, List.foldl_nil, Nat.zero_mul, Nat.zero_add]
            exact dVal_dChar hr
          rw [this]
          simp only [List.length_singleton, pow_one]
          omega

theorem digitsVal_natStr (n : Nat) : digitsVal (natStr n) = n := by
  unfold natStr
  split
  · rename_i h; subst h; decide
  · exact digitsVal_natStrAux n n (Nat.lt_pow_self (by norm_num) n)

theorem natStr_all_digit (n : Nat) : ∀ c ∈ natStr n, isDigitCh c = true := by
  unfold natStr
  split
  · intro c hc; simp at hc; subst hc; decide
  · exact natStrAux_all_digit n n

theorem natStr_ne_nil (n : Nat) : natStr n ≠ [] := by
  unfold natStr
  split
  · simp
  · rename_i h
    match hm : natStrAux n n with
    | [] =>
        exfalso
        have := digitsVal_natStrAux n n (Nat.lt_pow_self (by norm_num) n)
        rw [hm] at this
        simp [digitsVal] at this
        omega
    | _ :: _ => simp

theorem digit_not_ws {c : Char} (h : isDigitCh c = true) : isWsCh c = false := by
  simp only [isDigitCh, Bool.and_eq_true, decide_eq_true_eq] at h
  simp only [isWsCh, Bool.or_eq_false_iff, beq_eq_false_iff_ne, ne_eq,
    Bool.and_eq_false_iff, decide_eq_false_iff_not, not_le]
  omega

theorem digit_lt_128 {c : Char} (h : isDigitCh c = true) : c.toNat < 128 := by
  simp only [isDigitCh, Bool.and_eq_true, decide_eq_true_eq] at h
  omega

theorem dropWhile_eq_self_of {p : Char → Bool} {s : List Char}
    (h : ∀ c ∈ s, p c = false) : s.dropWhile p = s := by
  cases s with
  | nil => rfl
  | cons c t => simp [List.dropWhile_cons, h c (List.mem_cons_self c t)]

theorem dropWhile_append_of_true {p : Char → Bool} {l1 l2 : List Char}
    (h : ∀ c ∈ l1, p c = true) : (l1 ++ l2).dropWhile p = l2.dropWhile p := by
  induction l1 with
  | nil => rfl
  | cons c t ih =>
      simp only [List.cons_append, List.dropWhile_cons, h c (List.mem_cons_self c t)]
      simp only [if_pos]
      exact ih (fun x hx => h x (List.mem_cons_of_mem c hx))

theorem pyLstrip_eq_self {s : List Char} (h : ∀ c ∈ s, isWsCh c = false) :
    pyLstrip s = s :=
  dropWhile_eq_self_of h

theorem pyRstrip_eq_self {s : List Char} (h : ∀ c ∈ s, isWsCh c = false) :
    pyRstrip s = s := by
  unfold pyRstrip
  rw [dropWhile_eq_self_of (fun c hc => h c (List.mem_reverse.mp hc))]
  exact List.reverse_reverse s

theorem pyStrip_eq_self {s : List Char} (h : ∀ c ∈ s, isWsCh c = false) :
    pyStrip s = s := by
  unfold pyStrip
  rw [pyLstrip_eq_self h, pyRstrip_eq_self h]

theorem pyLstrip_spaces_append (k : Nat) (s : List Char) :
    pyLstrip (List.replicate k ' ' ++ s) = pyLstrip s :=
  dropWhile_append_of_true (fun c hc => by rw [List.eq_of_mem_replicate hc]; decide)

theorem pyRstrip_append_spaces (k : Nat) (s : List Char) :
    pyRstrip (s ++ List.replicate k ' ') = pyRstrip s := by
  unfold pyRstrip
  rw [List.reverse_append, List.reverse_replicate,
    dropWhile_append_of_true (fun c hc => by rw [List.eq_of_mem_replicate hc]; decide)]

theorem removeNuls_eq_self {s : List Char} (h : ∀ c ∈ s, c.toNat ≠ 0) :
    removeNuls s = s := by
  unfold removeNuls
  rw [List.filter_eq_self.mpr]
  intro a ha
  simpa using h a ha

theorem parseIntBody_digits {u : List Char} (sign : Bool) (hu : u ≠ [])
    (hd : ∀ c ∈ u, isDigitCh c = true) :
    parseIntBody sign u =
      Except.ok (if sign then -(digitsVal u : Int) else (digitsVal u : Int)) := by
  unfold parseIntBody
  rw [if_pos ⟨hu, List.all_eq_true.mpr hd⟩]

theorem parseInt_intStr (i : Int) : parseInt (intStr i) = Except.ok i := by
  unfold parseInt
  by_cases hneg : i < 0
  · have hstr : intStr i = '-' :: natStr i.natAbs := by simp [intStr, hneg]
    have hstrip : pyStrip (intStr i) = '-' :: natStr i.natAbs := by
      rw [hstr]
      apply pyStrip_eq_self
      intro c hc
      rcases List.mem_cons.mp hc with rfl | hc
      · decide
      · exact digit_not_ws (natStr_all_digit _ c hc)
    rw [hstrip]
    show parseIntBody true (natStr i.natAbs) = Except.ok i
    rw [parseIntBody_digits true (natStr_ne_nil _) (natStr_all_digit _)]
    rw [if_pos rfl, digitsVal_natStr]
    congr 1
    omega
  · have hstr : intStr i = natStr i.toNat := by simp [intStr, hneg]
    have hstrip : pyStrip (intStr i) = natStr i.toNat := by
      rw [hstr]
      exact pyStrip_eq_self (fun c hc => digit_not_ws (natStr_all_digit _ c hc))
    rw [hstrip]
    rcases hm : natStr i.toNat with _ | ⟨c, cs⟩
    · exact absurd hm (natStr_ne_nil _)
    · have hcd : isDigitCh c = true := natStr_all_digit _ c (by rw [hm]; simp)
      have hcm : c ≠ '-' := by
        intro h; rw [h] at hcd; exact absurd hcd (by decide)
      have hcp : c ≠ '+' := by
        intro h; rw [h] at hcd; exact absurd hcd (by decide)
      show (if c = '-' then parseIntBody true cs
        else if c = '+' then parseIntBody false cs
        else parseIntBody false (c :: cs)) = Except.ok i
      rw [if_neg hcm, if_neg hcp]
      rw [parseIntBody_digits false (by simp)
        (fun x hx => natStr_all_digit _ x (by rw [hm]; exact hx))]
      rw [if_neg (by simp)]
      rw [← hm, digitsVal_natStr]
      congr 1
      omega

/-- Decimals whose to-string form is plain (no exponent suffix):
non-positive exponent and adjusted exponent at least -6. -/
def PlainDecimal (d : PyDecimal) : Prop :=
  d.exponent ≤ 0 ∧ -6 < d.exponent + (natStr d.coeff).length

theorem takeWhile_append_of_true {p : Char → Bool} {l1 l2 : List Char}
    (h : ∀ c ∈ l1, p c = true) : (l1 ++ l2).takeWhile p = l1 ++ l2.takeWhile p := by
  induction l1 with
  | nil => rfl
  | cons c t ih =>
      simp only [List.cons_append, List.takeWhile_cons, h c (List.mem_cons_self c t)]
      simp only [if_pos]
      rw [ih (fun x hx => h x (List.mem_cons_of_mem c hx))]

theorem takeWhile_eq_self_of {p : Char → Bool} {s : List Char}
    (h : ∀ c ∈ s, p c = true) : s.takeWhile p = s := by
  have := @takeWhile_append_of_true p s [] h
  simpa using this

theorem dropWhile_eq_nil_of {p : Char → Bool} {s : List Char}
    (h : ∀ c ∈ s, p c = true) : s.dropWhile p = [] := by
  have := @dropWhile_append_of_true p s [] h
  simpa using this

theorem digitsVal_replicate_zero (m : Nat) : digitsVal (List.replicate m '0') = 0 := by
  induction m with
  | zero => rfl
  | succ k ih =>
      rw [List.replicate_succ', digitsVal_append, ih]
      decide

theorem digitsVal_zeros_append (m : Nat) (s : List Char) :
    digitsVal (List.replicate m '0' ++ s) = digitsVal s := by
  rw [digitsVal_append, digitsVal_replicate_zero]
  simp

theorem parseDecBody_digits (sg : Bool) (ds : List Char) (hne : ds ≠ [])
    (hd : ∀ c ∈ ds, isDigitCh c = true) :
    parseDecBody sg ds = Except.ok ⟨sg, digitsVal ds, 0⟩ := by
  unfold parseDecBody
  rw [takeWhile_eq_self_of hd, dropWhile_eq_nil_of hd]
  show parseDecNoDot sg ds [] = _
  unfold parseDecNoDot
  rw [if_neg hne]
  rfl

theorem parseDecBody_dot (sg : Bool) (A B : List Char)
    (hA : ∀ c ∈ A, isDigitCh c = true) (hB : ∀ c ∈ B, isDigitCh c = true)
    (hne : ¬(A = [] ∧ B = [])) :
    parseDecBody sg (A ++ '.' :: B) = Except.ok ⟨sg, digitsVal (A ++ B), -(B.length : Int)⟩ := by
  unfold parseDecBody
  have hdot : isDigitCh '.' = false := by decide
  have ht : ('.' :: B).takeWhile isDigitCh = [] := by
    simp [List.takeWhile_cons, hdot]
  have hd2 : ('.' :: B).dropWhile isDigitCh = '.' :: B := by
    simp [List.dropWhile_cons, hdot]
  rw [takeWhile_append_of_true hA, dropWhile_append_of_true hA, ht, hd2, List.append_nil]
  show (if ('.' : Char) = '.' then _ else _) = _
  rw [if_pos rfl]
  rw [takeWhile_eq_self_of hB, dropWhile_eq_nil_of hB]
  rw [if_neg hne]
  show Except.ok (⟨sg, digitsVal (A ++ B), 0 - (B.length : Int)⟩ : PyDecimal)
    = Except.ok (⟨sg, digitsVal (A ++ B), -(B.length : Int)⟩ : PyDecimal)
  have h0 : (0 : Int) - (B.length : Int) = -(B.length : Int) := by omega
  rw [h0]

theorem parseDecimalText_eq (sg : Bool) (body : List Char)
    (hnw : ∀ c ∈ body, isWsCh c = false)
    (hhead : ∀ c rest, body = c :: rest → isDigitCh c = true) :
    parseDecimalText ((if sg then ['-'] else []) ++ body) = parseDecBody sg body := by
  cases sg with
  | false =>
      show parseDecimalText body = parseDecBody false body
      unfold parseDecimalText
      rw [pyStrip_eq_self hnw]
      match hb : body with
      | [] => rfl
      | c :: rest =>
          have hcd := hhead c rest rfl
          have hcm : c ≠ '-' := by intro h; rw [h] at hcd; exact absurd hcd (by decide)
          have hcp : c ≠ '+' := by intro h; rw [h] at hcd; exact absurd hcd (by decide)
          show (if c = '-' then parseDecBody true rest
            else if c = '+' then parseDecBody false rest
            else parseDecBody false (c :: rest)) = _
          rw [if_neg hcm, if_neg hcp]
  | true =>
      show parseDecimalText ('-' :: body) = parseDecBody true body
      unfold parseDecimalText
      have : pyStrip ('-' :: body) = '-' :: body := by
        apply pyStrip_eq_self
        intro c hc
        rcases List.mem_cons.mp hc with rfl | hc
        · decide
        · exact hnw c hc
      rw [this]
      show (if '-' = '-' then parseDecBody true body
        else if '-' = '+' then parseDecBody false body
        else parseDecBody false ('-' :: body)) = _
      rw [if_pos rfl]

theorem head_of_append_cons {l1 l2 : List Char} {c : Char} {rest : List Char}
    (h : l1 ++ l2 = c :: rest) : c ∈ l1 ∨ (l1 = [] ∧ l2 = c :: rest) := by
  cases l1 with
  | nil => exact Or.inr ⟨rfl, by simpa using h⟩
  | cons x xs =>
      left
      have hx : x = c := by
        have := congrArg (fun l => List.head? l) h
        simpa using this
      rw [hx]
      exact List.mem_cons_self c _

theorem parseDecimalText_pyDecimalStr (d : PyDecimal) (h : PlainDecimal d) :
    parseDecimalText (pyDecimalStr d) = Except.ok d := by
  obtain ⟨sg, co, e⟩ := d
  obtain ⟨he, hl⟩ := h
  simp only at he hl
  have hdd := natStr_all_digit co
  have hne := natStr_ne_nil co
  have hL : 0 < (natStr co).length := List.length_pos.mpr hne
  by_cases he0 : e = 0
  · subst he0
    have hval : pyDecimalStr ⟨sg, co, 0⟩ = (if sg then ['-'] else []) ++ natStr co := by
      simp only [pyDecimalStr]
      rw [if_pos ⟨he, hl⟩]
      simp
    rw [hval, parseDecimalText_eq sg (natStr co)
        (fun c hc => digit_not_ws (hdd c hc))
        (fun c rest hcr => hdd c (by rw [hcr]; exact List.mem_cons_self c rest))]
    rw [parseDecBody_digits sg (natStr co) hne hdd, digitsVal_natStr]
  · have helt : e < 0 := lt_of_le_of_ne he he0
    by_cases hpos : (0 : Int) < e + ((natStr co).length : Int)
    · have hk0 : 0 < (e + ((natStr co).length : Int)).toNat := by omega
      have hkL : (e + ((natStr co).length : Int)).toNat < (natStr co).length := by omega
      have hA : ∀ c ∈ (natStr co).take (e + ((natStr co).length : Int)).toNat,
          isDigitCh c = true := fun c hc => hdd c (List.take_subset _ _ hc)
      have hB : ∀ c ∈ (natStr co).drop (e + ((natStr co).length : Int)).toNat,
          isDigitCh c = true := fun c hc => hdd c (List.drop_subset _ _ hc)
      have htne : (natStr co).take (e + ((natStr co).length : Int)).toNat ≠ [] :=
        List.length_pos.mp (by rw [List.length_take]; omega)
      have hval : pyDecimalStr ⟨sg, co, e⟩ = (if sg then ['-'] else []) ++
          ((natStr co).take (e + ((natStr co).length : Int)).toNat ++
            '.' :: (natStr co).drop (e + ((natStr co).length : Int)).toNat) := by
        simp only [pyDecimalStr]
        rw [if_pos ⟨he, hl⟩, if_neg he0, if_pos hpos, List.append_assoc]
      rw [hval, parseDecimalText_eq sg _
          (by
            intro c hc
            rcases List.mem_append.mp hc with hc | hc
            · exact digit_not_ws (hA c hc)
            · rcases List.mem_cons.mp hc with rfl | hc
              · decide
              · exact digit_not_ws (hB c hc))
          (by
            intro c rest hcr
            rcases head_of_append_cons hcr with hc | ⟨hnil, _⟩
            · exact hA c hc
            · exact absurd hnil htne)]
      rw [parseDecBody_dot sg _ _ hA hB (fun hand => htne hand.1)]
      rw [List.take_append_drop, digitsVal_natStr]
      have hexp : -(((natStr co).drop (e + ((natStr co).length : Int)).toNat).length : Int)
          = e := by
        rw [List.length_drop]
        omega
      rw [hexp]
    · have hz : (0 : Int) ≤ -(e + ((natStr co).length : Int)) := by omega
      have hB : ∀ c ∈ List.replicate (-(e + ((natStr co).length : Int))).toNat '0'
          ++ natStr co, isDigitCh c = true := by
        intro c hc
        rcases List.mem_append.mp hc with hc | hc
        · rw [List.eq_of_mem_replicate hc]; decide
        · exact hdd c hc
      have hval : pyDecimalStr ⟨sg, co, e⟩ = (if sg then ['-'] else []) ++
          (['0'] ++ '.' :: (List.replicate (-(e + ((natStr co).length : Int))).toNat '0'
            ++ natStr co)) := by
        simp only [pyDecimalStr]
        rw [if_pos ⟨he, hl⟩, if_neg he0, if_neg hpos]
        simp
      rw [hval, parseDecimalText_eq sg _
          (by
            intro c hc
            rcases List.mem_append.mp hc with hc | hc
            · rcases List.mem_singleton.mp hc with rfl
              decide
            · rcases List.mem_cons.mp hc with rfl | hc
              · decide
              · exact digit_not_ws (hB c hc))
          (by
            intro c rest hcr
            rcases head_of_append_cons hcr with hc | ⟨hnil, _⟩
            · rcases List.mem_singleton.mp hc with rfl
              decide
            · exact absurd hnil (by simp))]
      rw [parseDecBody_dot sg _ _ (by intro c hc; rcases List.mem_singleton.mp hc with rfl; decide)
        hB (fun hand => by simpa using hand.1)]
      have hco : digitsVal (['0'] ++ (List.replicate (-(e + ((natStr co).length : Int))).toNat '0'
          ++ natStr co)) = co := by
        rw [← List.append_assoc]
        have : (['0'] : List Char) ++ List.replicate (-(e + ((natStr co).length : Int))).toNat '0'
            = List.replicate ((-(e + ((natStr co).length : Int))).toNat + 1) '0' := by
          rw [List.replicate_succ]
          rfl
        rw [this, digitsVal_zeros_append, digitsVal_natStr]
      rw [hco]
      have hexp : -(((List.replicate (-(e + ((natStr co).length : Int))).toNat '0'
          ++ natStr co).length : Int)) = e := by
        rw [List.length_append, List.length_replicate]
        omega
      rw [hexp]

theorem digit_bounds {c : Char} (h : isDigitCh c = true) :
    48 ≤ c.toNat ∧ c.toNat ≤ 57 := by
  simpa [isDigitCh, Bool.and_eq_true, decide_eq_true_eq] using h

theorem natStrAux_length_le : ∀ f n k, n < 10 ^ k → (natStrAux f n).length ≤ k := by
  intro f
  induction f with
  | zero => intro n k _; simp [natStrAux]
  | succ f ih =>
      intro n k h
      match n with
      | 0 => simp [natStrAux]
      | n + 1 =>
          have hk : 0 < k := by
            by_contra hk0
            have hz : k = 0 := by omega
            subst hz
            simp at h
          have hpow : 10 ^ (k - 1) * 10 = 10 ^ k := by
            rw [← pow_succ]
            congr 1
            omega
          have hq : (n + 1) / 10 < 10 ^ (k - 1) := by
            rw [Nat.div_lt_iff_lt_mul (by omega)]
            omega
          simp only [natStrAux, List.length_append, List.length_singleton]
          have := ih ((n + 1) / 10) (k - 1) hq
          omega

theorem natStr_length_le {n k : Nat} (h : n < 10 ^ k) (hk : 0 < k) :
    (natStr n).length ≤ k := by
  unfold natStr
  split
  · simpa using hk
  · exact natStrAux_length_le n n k h

theorem padZ_length {k n : Nat} (h : (natStr n).length ≤ k) : (padZ k n).length = k := by
  unfold padZ
  rw [List.length_append, List.length_replicate]
  omega

theorem padZ_all_digit (k n : Nat) : ∀ c ∈ padZ k n, isDigitCh c = true := by
  intro c hc
  unfold padZ at hc
  rcases List.mem_append.mp hc with hc | hc
  · rw [List.eq_of_mem_replicate hc]; decide
  · exact natStr_all_digit n c hc

theorem padZ_ne_nil (k n : Nat) : padZ k n ≠ [] := by
  apply List.length_pos.mp
  unfold padZ
  rw [List.length_append, List.length_replicate]
  have := List.length_pos.mpr (natStr_ne_nil n)
  omega

theorem parseInt_digits {s : List Char} (hne : s ≠ [])
    (hd : ∀ c ∈ s, isDigitCh c = true) :
    parseInt s = Except.ok (digitsVal s : Int) := by
  unfold parseInt
  rw [pyStrip_eq_self (fun c hc => digit_not_ws (hd c hc))]
  cases s with
  | nil => exact absurd rfl hne
  | cons c cs =>
      have hcd : isDigitCh c = true := hd c (List.mem_cons_self c cs)
      have hcm : c ≠ '-' := by intro h; rw [h] at hcd; exact absurd hcd (by decide)
      have hcp : c ≠ '+' := by intro h; rw [h] at hcd; exact absurd hcd (by decide)
      show (if c = '-' then parseIntBody true cs
        else if c = '+' then parseIntBody false cs
        else parseIntBody false (c :: cs)) = _
      rw [if_neg hcm, if_neg hcp,
        parseIntBody_digits false (by simp) (fun x hx => hd x hx)]
      rw [if_neg (by simp)]

theorem parseInt_padZ {k n : Nat} (h : (natStr n).length ≤ k) :
    parseInt (padZ k n) = Except.ok (n : Int) := by
  rw [parseInt_digits (padZ_ne_nil k n) (padZ_all_digit k n)]
  congr 1
  unfold padZ
  rw [digitsVal_zeros_append, digitsVal_natStr]

theorem parseInt_natStr (n : Nat) : parseInt (natStr n) = Except.ok (n : Int) := by
  rw [parseInt_digits (natStr_ne_nil n) (natStr_all_digit n), digitsVal_natStr]

theorem digitsVal_lt_pow (s : List Char) (hd : ∀ c ∈ s, isDigitCh c = true) :
    digitsVal s < 10 ^ s.length := by
  induction s with
  | nil => simp [digitsVal]
  | cons c t ih =>
      have hds : digitsVal (c :: t) = dVal c * 10 ^ t.length + digitsVal t := by
        simp only [digitsVal, List.foldl_cons]
        simpa using digitsValFrom (dVal c) t
      have hc : dVal c ≤ 9 := by
        have := digit_bounds (hd c (List.mem_cons_self c t))
        unfold dVal
        omega
      have ht := ih (fun x hx => hd x (List.mem_cons_of_mem c hx))
      rw [hds]
      simp only [List.length_cons, pow_succ]
      calc dVal c * 10 ^ t.length + digitsVal t
          ≤ 9 * 10 ^ t.length + digitsVal t := by
            have := Nat.mul_le_mul_right (10 ^ t.length) hc
            omega
        _ < 9 * 10 ^ t.length + 10 ^ t.length := by omega
        _ = 10 ^ t.length * 10 := by ring

theorem natStr_length_four {y : Nat} (h1 : 1000 ≤ y) (h2 : y ≤ 9999) :
    (natStr y).length = 4 := by
  have hle : (natStr y).length ≤ 4 := natStr_length_le (by omega) (by omega)
  have hlt : y < 10 ^ (natStr y).length := by
    have := digitsVal_lt_pow (natStr y) (natStr_all_digit y)
    rwa [digitsVal_natStr] at this
  by_contra hne
  have hle3 : (natStr y).length ≤ 3 := by omega
  have : (10 : Nat) ^ (natStr y).length ≤ 10 ^ 3 := Nat.pow_le_pow_right (by norm_num) hle3
  omega

theorem intStr_chars (i : Int) :
    ∀ c ∈ intStr i, c.toNat < 128 ∧ c.toNat ≠ 0 ∧ isWsCh c = false := by
  intro c hc
  unfold intStr at hc
  split at hc
  · rcases List.mem_cons.mp hc with rfl | hc
    · exact ⟨by decide, by decide, by decide⟩
    · have hd := natStr_all_digit _ c hc
      have := digit_bounds hd
      exact ⟨by omega, by omega, digit_not_ws hd⟩
  · have hd := natStr_all_digit _ c hc
    have := digit_bounds hd
    exact ⟨by omega, by omega, digit_not_ws hd⟩

theorem pyDecimalStr_chars (d : PyDecimal) (h : PlainDecimal d) :
    ∀ c ∈ pyDecimalStr d, c.toNat < 128 ∧ c.toNat ≠ 0 ∧ isWsCh c = false := by
  obtain ⟨sg, co, e⟩ := d
  obtain ⟨he, hl⟩ := h
  simp only at he hl
  intro c hc
  have hdig : ∀ x : Char, isDigitCh x = true →
      x.toNat < 128 ∧ x.toNat ≠ 0 ∧ isWsCh x = false := by
    intro x hx
    have := digit_bounds hx
    exact ⟨by omega, by omega, digit_not_ws hx⟩
  have hsgn : ∀ x ∈ (if sg = true then ['-'] else ([] : List Char)),
      x.toNat < 128 ∧ x.toNat ≠ 0 ∧ isWsCh x = false := by
    intro x hx
    split at hx
    · rcases List.mem_singleton.mp hx with rfl
      exact ⟨by decide, by decide, by decide⟩
    · simp at hx
  simp only [pyDecimalStr] at hc
  rw [if_pos ⟨he, hl⟩] at hc
  split at hc
  · rcases List.mem_append.mp hc with hc | hc
    · exact hsgn c hc
    · exact hdig c (natStr_all_digit co c hc)
  · split at hc
    · rcases List.mem_append.mp hc with hc | hc
      · rcases List.mem_append.mp hc with hc | hc
        · exact hsgn c hc
        · exact hdig c (natStr_all_digit co c (List.take_subset _ _ hc))
      · rcases List.mem_cons.mp hc with rfl | hc
        · exact ⟨by decide, by decide, by decide⟩
        · exact hdig c (natStr_all_digit co c (List.drop_subset _ _ hc))
    · rcases List.mem_append.mp hc with hc | hc
      · rcases List.mem_append.mp hc with hc | hc
        · exact hsgn c hc
        · rcases List.mem_cons.mp hc with rfl | hc
          · exact ⟨by decide, by decide, by decide⟩
          · rcases List.mem_cons.mp hc with rfl | hc
            · exact ⟨by decide, by decide, by decide⟩
            · rw [List.eq_of_mem_replicate hc]
              exact ⟨by decide, by decide, by decide⟩
      · exact hdig c (natStr_all_digit co c hc)

theorem pyDecimalStr_ne_nil (d : PyDecimal) (h : PlainDecimal d) :
    pyDecimalStr d ≠ [] := by
  obtain ⟨sg, co, e⟩ := d
  obtain ⟨he, hl⟩ := h
  simp only at he hl
  simp only [pyDecimalStr]
  rw [if_pos ⟨he, hl⟩]
  split
  · simp [natStr_ne_nil]
  · split
    · intro hnil
      rcases List.append_eq_nil.mp hnil with ⟨_, h2⟩
      exact List.noConfusion h2
    · intro hnil
      rcases List.append_eq_nil.mp hnil with ⟨h1, _⟩
      rcases List.append_eq_nil.mp h1 with ⟨_, h3⟩
      exact List.noConfusion h3

theorem pyStrip_append_spaces {s : List Char} (k : Nat)
    (hls : pyLstrip s = s) (hrs : pyRstrip s = s) :
    pyStrip (s ++ List.replicate k ' ') = s := by
  unfold pyStrip
  cases s with
  | nil =>
      simp only [List.nil_append]
      rw [show pyLstrip (List.replicate k ' ') = ([] : List Char) from
        dropWhile_eq_nil_of (fun c hc => by rw [List.eq_of_mem_replicate hc]; decide)]
      rfl
  | cons c t =>
      have hc : isWsCh c = false := by
        have := List.dropWhile_eq_self_iff.mp hls (by simp)
        simpa using this
      have h1 : pyLstrip ((c :: t) ++ List.replicate k ' ') = (c :: t) ++ List.replicate k ' ' := by
        simp [pyLstrip, List.dropWhile_cons, hc]
      rw [h1, pyRstrip_append_spaces, hrs]

theorem ok_bind {ε α β : Type} (a : α) (f : α → Except ε β) :
    (Except.ok a >>= f : Except ε β) = f a := rfl

theorem rjustSp_length {n : Nat} {s : List Char} (h : s.length ≤ n) :
    (rjustSp n s).length = n := by
  unfold rjustSp
  rw [List.length_append, List.length_replicate]
  omega

theorem intStr_ne_nil (i : Int) : intStr i ≠ [] := by
  unfold intStr
  split
  · simp
  · exact natStr_ne_nil _

theorem rjustSp_eq (n : Nat) (s : List Char) :
    rjustSp n s = List.replicate (n - s.length) ' ' ++ s := rfl

theorem decodeNumeric_int (size : Nat) (i : Int) :
    decodeNumeric 0 ((rjustSp size (intStr i)).map Char.toNat) = Except.ok (PyVal.int i) := by
  have hchars := intStr_chars i
  have hascii : ∀ c ∈ rjustSp size (intStr i), c.toNat < 128 := by
    intro c hc
    rcases List.mem_append.mp hc with hc | hc
    · rw [List.eq_of_mem_replicate hc]; decide
    · exact (hchars c hc).1
  have hs := decodeAscii_map_toNat hascii
  unfold decodeNumeric
  rw [hs, ok_bind]
  have hnul : removeNuls (rjustSp size (intStr i)) = rjustSp size (intStr i) := by
    apply removeNuls_eq_self
    intro c hc
    rcases List.mem_append.mp hc with hc | hc
    · rw [List.eq_of_mem_replicate hc]; decide
    · exact (hchars c hc).2.1
  have hls : pyLstrip (rjustSp size (intStr i)) = intStr i := by
    rw [rjustSp_eq, pyLstrip_spaces_append]
    exact pyLstrip_eq_self (fun c hc => (hchars c hc).2.2)
  simp only [hnul, hls]
  rw [if_neg (intStr_ne_nil i), if_neg (by simp)]
  rw [parseInt_intStr, ok_bind]

theorem decodeNumeric_dec {deci : Nat} (hdeci : deci ≠ 0) (size : Nat) (dd : PyDecimal)
    (hp : PlainDecimal dd) :
    decodeNumeric deci ((rjustSp size (pyDecimalStr dd)).map Char.toNat)
      = Except.ok (PyVal.dec dd) := by
  have hchars := pyDecimalStr_chars dd hp
  have hascii : ∀ c ∈ rjustSp size (pyDecimalStr dd), c.toNat < 128 := by
    intro c hc
    rcases List.mem_append.mp hc with hc | hc
    · rw [List.eq_of_mem_replicate hc]; decide
    · exact (hchars c hc).1
  have hs := decodeAscii_map_toNat hascii
  unfold decodeNumeric
  rw [hs, ok_bind]
  have hnul : removeNuls (rjustSp size (pyDecimalStr dd)) = rjustSp size (pyDecimalStr dd) := by
    apply removeNuls_eq_self
    intro c hc
    rcases List.mem_append.mp hc with hc | hc
    · rw [List.eq_of_mem_replicate hc]; decide
    · exact (hchars c hc).2.1
  have hls : pyLstrip (rjustSp size (pyDecimalStr dd)) = pyDecimalStr dd := by
    rw [rjustSp_eq, pyLstrip_spaces_append]
    exact pyLstrip_eq_self (fun c hc => (hchars c hc).2.2)
  simp only [hnul, hls]
  rw [if_neg (pyDecimalStr_ne_nil dd hp), if_pos hdeci]
  rw [parseDecimalText_pyDecimalStr dd hp, ok_bind]

theorem daysInMonth_le (y m : Nat) : daysInMonth y m ≤ 31 := by
  unfold daysInMonth
  split
  · split <;> omega
  · split <;> omega

theorem decodeDate_strftime {y m d : Nat} (hy1 : 1000 ≤ y) (hy2 : y ≤ 9999)
    (hm1 : 1 ≤ m) (hm2 : m ≤ 12) (hd1 : 1 ≤ d) (hd2 : d ≤ daysInMonth y m) :
    decodeDate ((strftimeYmd y m d).map Char.toNat) = Except.ok (PyVal.date y m d) := by
  have hdm := daysInMonth_le y m
  have hma : (natStr m).length ≤ 2 := natStr_length_le (by omega) (by omega)
  have hda : (natStr d).length ≤ 2 := natStr_length_le (by omega) (by omega)
  have h4 : (natStr y).length = 4 := natStr_length_four hy1 hy2
  have h2m : (padZ 2 m).length = 2 := padZ_length hma
  have h2d : (padZ 2 d).length = 2 := padZ_length hda
  have hchars : ∀ c ∈ strftimeYmd y m d, c.toNat < 128 := by
    intro c hc
    unfold strftimeYmd at hc
    rcases List.mem_append.mp hc with hc | hc
    · rcases List.mem_append.mp hc with hc | hc
      · exact digit_lt_128 (natStr_all_digit y c hc)
      · exact digit_lt_128 (padZ_all_digit 2 m c hc)
    · exact digit_lt_128 (padZ_all_digit 2 d c hc)
  have hs := decodeAscii_map_toNat hchars
  unfold decodeDate
  rw [hs, ok_bind]
  have htake4 : (strftimeYmd y m d).take 4 = natStr y := by
    unfold strftimeYmd
    rw [List.append_assoc]
    exact List.take_left' h4
  have hdrop4 : (strftimeYmd y m d).drop 4 = padZ 2 m ++ padZ 2 d := by
    unfold strftimeYmd
    rw [List.append_assoc]
    exact List.drop_left' h4
  have htake2m : ((strftimeYmd y m d).drop 4).take 2 = padZ 2 m := by
    rw [hdrop4]
    exact List.take_left' h2m
  have hdrop6 : (strftimeYmd y m d).drop 6 = padZ 2 d := by
    unfold strftimeYmd
    have h6 : (natStr y ++ padZ 2 m).length = 6 := by
      rw [List.length_append]; omega
    exact List.drop_left' h6
  have htake2d : ((strftimeYmd y m d).drop 6).take 2 = padZ 2 d := by
    rw [hdrop6]
    exact List.take_of_length_le (by omega)
  rw [htake4, parseInt_natStr, ok_bind, htake2m, parseInt_padZ hma, ok_bind,
    htake2d, parseInt_padZ hda, ok_bind]
  unfold mkDate
  rw [if_pos]
  · simp
  · unfold okDate
    simp only [Int.toNat_natCast]
    refine ⟨by omega, by omega, by omega, by omega, by omega, by omega⟩

theorem ljustSp_take_length (n : Nat) (s : List Char) :
    (ljustSp n (s.take n)).length = n := by
  unfold ljustSp
  rw [List.length_append, List.length_replicate, List.length_take]
  omega

theorem decodeField_text {typ : Char} {size deci : Nat} {s : List Char}
    (hN : typ ≠ 'N') (hD : typ ≠ 'D') (hL : typ ≠ 'L') (hF : typ ≠ 'F')
    (hlen : s.length ≤ size) (hascii : ∀ c ∈ s, c.toNat < 128)
    (hls : pyLstrip s = s) (hrs : pyRstrip s = s) :
    decodeField ⟨typ, size, deci⟩ ((ljustSp size (s.take size)).map Char.toNat)
      = Except.ok (PyVal.text s) := by
  have htk : s.take size = s := List.take_of_length_le hlen
  have hascii2 : ∀ c ∈ ljustSp size (s.take size), c.toNat < 128 := by
    intro c hc
    unfold ljustSp at hc
    rcases List.mem_append.mp hc with hc | hc
    · rw [htk] at hc
      exact hascii c hc
    · rw [List.eq_of_mem_replicate hc]; decide
  unfold decodeField
  rw [if_neg hN, if_neg hD, if_neg hL, if_neg hF]
  rw [decodeAscii_map_toNat hascii2, ok_bind]
  unfold ljustSp
  rw [htk, pyStrip_append_spaces _ hls hrs]

/-- Datasets for which the writer-then-reader round trip is exact: the
field-width invariants of the claim, together with the value-shape
conditions the source imposes (values typed to match the tag, plain
Decimal text forms, four-digit years, logical values exactly the str T,
and text values with no leading or trailing whitespace, since the reader
strips text fields). -/
def ValidSpec (spec : FieldSpec) : Prop :=
  spec.typ ∈ (['C', 'N', 'D', 'L', 'M'] : List Char) ∧ 1 ≤ spec.size ∧ spec.size ≤ 255 ∧
  spec.deci ≤ 255 ∧ (spec.typ = 'D' → spec.size = 8) ∧ (spec.typ = 'L' → spec.size = 1)

instance validSpecDecidable (spec : FieldSpec) : Decidable (ValidSpec spec) := by
  unfold ValidSpec
  infer_instance

/-- Value shapes that survive the round trip for a given spec; see
ValidSpec. -/
def ValidValue (spec : FieldSpec) (v : PyVal) : Prop :=
  (spec.typ = 'N' ∧ spec.deci = 0 ∧
    ∃ i, v = PyVal.int i ∧ (intStr i).length ≤ spec.size) ∨
  (spec.typ = 'N' ∧ spec.deci ≠ 0 ∧
    ∃ dd, v = PyVal.dec dd ∧ PlainDecimal dd ∧ (pyDecimalStr dd).length ≤ spec.size) ∨
  (spec.typ = 'D' ∧ ∃ y m dy, v = PyVal.date y m dy ∧ 1000 ≤ y ∧ y ≤ 9999 ∧
    1 ≤ m ∧ m ≤ 12 ∧ 1 ≤ dy ∧ dy ≤ daysInMonth y m) ∨
  (spec.typ = 'L' ∧ v = PyVal.text ['T']) ∨
  (spec.typ ≠ 'N' ∧ spec.typ ≠ 'D' ∧ spec.typ ≠ 'L' ∧ spec.typ ≠ 'F' ∧
    ∃ s, v = PyVal.text s ∧ s.length ≤ spec.size ∧ (∀ c ∈ s, c.toNat < 128) ∧
      pyLstrip s = s ∧ pyRstrip s = s)

theorem field_roundtrip (spec : FieldSpec) (v : PyVal) (hspec : ValidSpec spec)
    (hv : ValidValue spec v) :
    ∃ raw, encodeField spec v = Except.ok raw ∧ raw.length = spec.size ∧
      decodeField spec raw = Except.ok v := by
  obtain ⟨typ, size, deci⟩ := spec
  obtain ⟨htypmem, hsz1, hsz255, hdeci255, hD8, hL1⟩ := hspec
  rcases hv with ⟨htyp, hdeci, i, rfl, hlen⟩ | ⟨htyp, hdeci, dd, rfl, hp, hlen⟩ |
    ⟨htyp, y, m, dy, rfl, hy1, hy2, hm1, hm2, hd1, hd2⟩ | ⟨htyp, rfl⟩ |
    ⟨hN, hD, hL, hF, s, rfl, hlen, hascii, hls, hrs⟩
  · simp only at htyp hdeci hlen
    subst htyp
    subst hdeci
    refine ⟨(rjustSp size (intStr i)).map Char.toNat, ?_, ?_, ?_⟩
    · unfold encodeField encodeFieldRaw
      rw [if_pos rfl]
      have : encodeAscii (rjustSp size (intStr i))
          = Except.ok ((rjustSp size (intStr i)).map Char.toNat) := by
        apply encodeAscii_eq_ok
        intro c hc
        rcases List.mem_append.mp hc with hc | hc
        · rw [List.eq_of_mem_replicate hc]; decide
        · exact (intStr_chars i c hc).1
      rw [show pyStrOfVal (PyVal.int i) = intStr i from rfl, this, ok_bind]
      rw [if_pos (by rw [List.length_map]; exact rjustSp_length hlen)]
    · rw [List.length_map]; exact rjustSp_length hlen
    · unfold decodeField
      rw [if_pos rfl]
      exact decodeNumeric_int size i
  · simp only at htyp hdeci hlen
    subst htyp
    refine ⟨(rjustSp size (pyDecimalStr dd)).map Char.toNat, ?_, ?_, ?_⟩
    · unfold encodeField encodeFieldRaw
      rw [if_pos rfl]
      have : encodeAscii (rjustSp size (pyDecimalStr dd))
          = Except.ok ((rjustSp size (pyDecimalStr dd)).map Char.toNat) := by
        apply encodeAscii_eq_ok
        intro c hc
        rcases List.mem_append.mp hc with hc | hc
        · rw [List.eq_of_mem_replicate hc]; decide
        · exact (pyDecimalStr_chars dd hp c hc).1
      rw [show pyStrOfVal (PyVal.dec dd) = pyDecimalStr dd from rfl, this, ok_bind]
      rw [if_pos (by rw [List.length_map]; exact rjustSp_length hlen)]
    · rw [List.length_map]; exact rjustSp_length hlen
    · unfold decodeField
      rw [if_pos rfl]
      exact decodeNumeric_dec hdeci size dd hp
  · simp only at htyp
    subst htyp
    have hsz8 : size = 8 := hD8 rfl
    subst hsz8
    have hdm := daysInMonth_le y m
    have hlen8 : (strftimeYmd y m dy).length = 8 := by
      unfold strftimeYmd
      rw [List.length_append, List.length_append, natStr_length_four hy1 hy2,
        padZ_length (natStr_length_le (by omega) (by omega)),
        padZ_length (natStr_length_le (by omega) (by omega))]
    refine ⟨(strftimeYmd y m dy).map Char.toNat, ?_, ?_, ?_⟩
    · unfold encodeField
      rw [show encodeFieldRaw ⟨'D', 8, deci⟩ (PyVal.date y m dy)
        = encodeAscii (strftimeYmd y m dy) from rfl]
      have : encodeAscii (strftimeYmd y m dy)
          = Except.ok ((strftimeYmd y m dy).map Char.toNat) := by
        apply encodeAscii_eq_ok
        intro c hc
        unfold strftimeYmd at hc
        rcases List.mem_append.mp hc with hc | hc
        · rcases List.mem_append.mp hc with hc | hc
          · exact digit_lt_128 (natStr_all_digit y c hc)
          · exact digit_lt_128 (padZ_all_digit 2 m c hc)
        · exact digit_lt_128 (padZ_all_digit 2 dy c hc)
      rw [this, ok_bind]
      rw [if_pos (by rw [List.length_map]; exact hlen8)]
    · rw [List.length_map]; exact hlen8
    · unfold decodeField
      rw [if_neg (show ¬('D' : Char) = 'N' by decide), if_pos rfl]
      exact decodeDate_strftime hy1 hy2 hm1 hm2 hd1 hd2
  · simp only at htyp
    subst htyp
    have hsz1' : size = 1 := hL1 rfl
    subst hsz1'
    exact ⟨[84], rfl, rfl, rfl⟩
  · simp only at hN hD hL hF hlen
    refine ⟨(ljustSp size (s.take size)).map Char.toNat, ?_, ?_, ?_⟩
    · unfold encodeField encodeFieldRaw
      rw [if_neg hN, if_neg hD, if_neg hL]
      have : encodeAscii (ljustSp size ((pyStrOfVal (PyVal.text s)).take size))
          = Except.ok ((ljustSp size (s.take size)).map Char.toNat) := by
        show encodeAscii (ljustSp size (s.take size)) = _
        apply encodeAscii_eq_ok
        intro c hc
        unfold ljustSp at hc
        rcases List.mem_append.mp hc with hc | hc
        · exact hascii c (List.take_subset _ _ hc)
        · rw [List.eq_of_mem_replicate hc]; decide
      rw [this, ok_bind]
      rw [if_pos (by rw [List.length_map]; exact ljustSp_take_length size s)]
    · rw [List.length_map]; exact ljustSp_take_length size s
    · exact decodeField_text hN hD hL hF hlen hascii hls hrs

theorem getD_append_right {l1 l2 : Bytes} {n : Nat} (h : l1.length ≤ n) :
    (l1 ++ l2).getD n 0 = l2.getD (n - l1.length) 0 := by
  induction l1 generalizing n with
  | nil => simp
  | cons a t ih =>
      match n with
      | 0 => simp at h
      | n + 1 =>
          simp only [List.cons_append, List.getD_cons_succ, List.length_cons]
          rw [ih (by simpa using h)]
          congr 1
          omega

theorem removeNuls_replicate_nul (k : Nat) :
    removeNuls (List.replicate k (Char.ofNat 0)) = [] := by
  induction k with
  | zero => rfl
  | succ n ih =>
      rw [List.replicate_succ]
      show removeNuls (Char.ofNat 0 :: List.replicate n (Char.ofNat 0)) = []
      unfold removeNuls at ih ⊢
      rw [List.filter_cons]
      rw [show ((Char.ofNat 0).toNat != 0) = false from by decide]
      simpa using ih

theorem packDescriptor_eq {name : List Char} {spec : FieldSpec}
    (hlen : name.length ≤ 10) (hascii : ∀ c ∈ name, c.toNat < 128)
    (htyp : spec.typ.toNat < 128) (hsize : spec.size < 256) (hdeci : spec.deci < 256) :
    packDescriptor name spec = Except.ok
      (((name ++ List.replicate (11 - name.length) (Char.ofNat 0)).map Char.toNat)
        ++ spec.typ.toNat :: (List.replicate 4 0
          ++ spec.size :: spec.deci :: List.replicate 14 0)) := by
  have hpad : ∀ c ∈ name ++ List.replicate (11 - name.length) (Char.ofNat 0), c.toNat < 128 := by
    intro c hc
    rcases List.mem_append.mp hc with hc | hc
    · exact hascii c hc
    · rw [List.eq_of_mem_replicate hc]; decide
  have hnb : encodeAscii (ljustNul 11 name) = Except.ok
      ((name ++ List.replicate (11 - name.length) (Char.ofNat 0)).map Char.toNat) :=
    encodeAscii_eq_ok hpad
  have hnblen : ((name ++ List.replicate (11 - name.length) (Char.ofNat 0)).map Char.toNat).length
      = 11 := by
    rw [List.length_map, List.length_append, List.length_replicate]
    omega
  have htb : packC spec.typ = Except.ok [spec.typ.toNat] := by
    unfold packC
    rw [if_pos htyp]
  have hsb : packB spec.size = Except.ok [spec.size] := by
    unfold packB
    rw [if_pos hsize]
  have hdb : packB spec.deci = Except.ok [spec.deci] := by
    unfold packB
    rw [if_pos hdeci]
  unfold packDescriptor
  rw [hnb]
  simp only [htb, hsb, hdb, ok_bind]
  rw [List.take_of_length_le (le_of_eq hnblen), hnblen]
  simp [List.append_assoc]

theorem parseDescriptors_step {name : List Char} {spec : FieldSpec}
    (hlen : name.length ≤ 10) (hascii : ∀ c ∈ name, c.toNat < 128)
    (hnul : ∀ c ∈ name, c.toNat ≠ 0) (htyp : spec.typ.toNat < 128)
    {n : Nat} {bs : Bytes} {out : List (List Char × FieldSpec) × Bytes}
    (h : parseDescriptors n bs = Except.ok out) :
    parseDescriptors (n + 1)
      ((((name ++ List.replicate (11 - name.length) (Char.ofNat 0)).map Char.toNat)
        ++ spec.typ.toNat :: (List.replicate 4 0
          ++ spec.size :: spec.deci :: List.replicate 14 0)) ++ bs)
      = Except.ok ((name, spec) :: out.1, out.2) := by
  set nb := (name ++ List.replicate (11 - name.length) (Char.ofNat 0)).map Char.toNat with hnb
  set R := spec.typ.toNat :: (List.replicate 4 0
    ++ spec.size :: spec.deci :: List.replicate 14 0) with hR
  have hnblen : nb.length = 11 := by
    rw [hnb, List.length_map, List.length_append, List.length_replicate]
    omega
  have hDlen : (nb ++ R).length = 32 := by
    rw [List.length_append, hnblen, hR]
    simp
  obtain ⟨outl, outr⟩ := out
  have hblk : ((nb ++ R) ++ bs).take 32 = nb ++ R := List.take_left' hDlen
  have hdrop : ((nb ++ R) ++ bs).drop 32 = bs := List.drop_left' hDlen
  have htake11 : (nb ++ R).take 11 = nb := List.take_left' hnblen
  have hdec : decodeAscii nb = Except.ok
      (name ++ List.replicate (11 - name.length) (Char.ofNat 0)) := by
    rw [hnb]
    apply decodeAscii_map_toNat
    intro c hc
    rcases List.mem_append.mp hc with hc | hc
    · exact hascii c hc
    · rw [List.eq_of_mem_replicate hc]; decide
  have hrn : removeNuls (name ++ List.replicate (11 - name.length) (Char.ofNat 0)) = name := by
    unfold removeNuls
    rw [List.filter_append]
    have h1 : removeNuls name = name := removeNuls_eq_self hnul
    have h2 := removeNuls_replicate_nul (11 - name.length)
    unfold removeNuls at h1 h2
    rw [h1, h2]
    simp
  have hg11 : (nb ++ R).getD 11 0 = spec.typ.toNat := by
    rw [getD_append_right (by omega), hnblen]
    simp [hR]
  have hg16 : (nb ++ R).getD 16 0 = spec.size := by
    rw [getD_append_right (by omega), hnblen, hR]
    show (List.replicate 4 0 ++ spec.size :: spec.deci :: List.replicate 14 0).getD 4 0 = spec.size
    rw [getD_append_right (by simp)]
    simp
  have hg17 : (nb ++ R).getD 17 0 = spec.deci := by
    rw [getD_append_right (by omega), hnblen, hR]
    show (List.replicate 4 0 ++ spec.size :: spec.deci :: List.replicate 14 0).getD 5 0 = spec.deci
    rw [getD_append_right (by simp)]
    simp
  have hdt : decodeTagByte spec.typ.toNat = Except.ok (Char.ofNat spec.typ.toNat) := by
    unfold decodeTagByte
    rw [if_pos htyp]
  show parseDescriptors (n + 1) ((nb ++ R) ++ bs) = _
  unfold parseDescriptors
  rw [if_neg (by rw [List.length_append, hDlen]; omega)]
  simp only [hblk, hdrop, htake11, hdec, hrn, hg11, hg16, hg17, hdt, h,
    ok_bind, Char.ofNat_toNat]

theorem descriptors_roundtrip (pairs : List (List Char × FieldSpec))
    (hname : ∀ p ∈ pairs, p.1.length ≤ 10 ∧ ∀ c ∈ p.1, c.toNat < 128 ∧ c.toNat ≠ 0)
    (hspec : ∀ p ∈ pairs, p.2.typ.toNat < 128 ∧ p.2.size < 256 ∧ p.2.deci < 256) :
    ∃ bs, packDescriptors pairs = Except.ok bs ∧
      ∀ rest, parseDescriptors pairs.length (bs ++ rest) = Except.ok (pairs, rest) := by
  induction pairs with
  | nil =>
      refine ⟨[], rfl, fun rest => ?_⟩
      rfl
  | cons p t ih =>
      obtain ⟨name, spec⟩ := p
      have hn := hname (name, spec) (List.mem_cons_self _ t)
      have hs := hspec (name, spec) (List.mem_cons_self _ t)
      obtain ⟨bs, hpack, hparse⟩ := ih
        (fun q hq => hname q (List.mem_cons_of_mem _ hq))
        (fun q hq => hspec q (List.mem_cons_of_mem _ hq))
      have hD := @packDescriptor_eq name spec hn.1 (fun c hc => (hn.2 c hc).1)
        hs.1 hs.2.1 hs.2.2
      refine ⟨(((name ++ List.replicate (11 - name.length) (Char.ofNat 0)).map Char.toNat)
        ++ spec.typ.toNat :: (List.replicate 4 0
          ++ spec.size :: spec.deci :: List.replicate 14 0)) ++ bs, ?_, ?_⟩
      · unfold packDescriptors
        rw [hD, ok_bind, hpack, ok_bind]
      · intro rest
        rw [List.append_assoc]
        have hstep := @parseDescriptors_step name spec hn.1
          (fun c hc => (hn.2 c hc).1) (fun c hc => (hn.2 c hc).2) hs.1 _ _ _
          (hparse rest)
        simpa using hstep

theorem record_roundtrip (fields : List (List Char × FieldSpec)) (record : List PyVal)
    (hlen : record.length = fields.length)
    (hname : ∀ p ∈ fields, p.1 ≠ dfName)
    (hspec : ∀ p ∈ fields, ValidSpec p.2)
    (hval : ∀ q ∈ (fields.map Prod.snd).zip record, ValidValue q.1 q.2) :
    ∃ bs, encodeFieldsW ((fields.map Prod.snd).zip record) = Except.ok bs ∧
      bs.length = sumSizes (fields.map Prod.snd) ∧
      decodeFields fields bs = Except.ok record := by
  induction fields generalizing record with
  | nil =>
      have : record = [] := List.length_eq_zero.mp hlen
      subst this
      exact ⟨[], rfl, rfl, rfl⟩
  | cons p fs ih =>
      obtain ⟨name, spec⟩ := p
      cases record with
      | nil => simp at hlen
      | cons v rs =>
          have hzip : ((((name, spec) :: fs).map Prod.snd).zip (v :: rs))
              = (spec, v) :: ((fs.map Prod.snd).zip rs) := by
            simp
          have hv : ValidValue spec v := by
            have := hval (spec, v) (by rw [hzip]; exact List.mem_cons_self _ _)
            exact this
          obtain ⟨raw, henc, hrawlen, hdec⟩ := field_roundtrip spec v
            (hspec (name, spec) (List.mem_cons_self _ fs)) hv
          obtain ⟨bs, hencs, hbslen, hdecs⟩ := ih rs (by simpa using hlen)
            (fun q hq => hname q (List.mem_cons_of_mem _ hq))
            (fun q hq => hspec q (List.mem_cons_of_mem _ hq))
            (fun q hq => hval q (by rw [hzip]; exact List.mem_cons_of_mem _ hq))
          refine ⟨raw ++ bs, ?_, ?_, ?_⟩
          · rw [hzip]
            unfold encodeFieldsW
            rw [henc, ok_bind, hencs, ok_bind]
          · rw [List.length_append, hrawlen, hbslen]
            simp [sumSizes]
          · unfold decodeFields
            rw [if_neg (hname (name, spec) (List.mem_cons_self _ fs))]
            have htk : (raw ++ bs).take spec.size = raw := List.take_left' hrawlen
            have hdr : (raw ++ bs).drop spec.size = bs := List.drop_left' hrawlen
            rw [htk, hdr, hdec, ok_bind, hdecs, ok_bind]

theorem recSize_cons (name : List Char) (spec : FieldSpec)
    (fields : List (List Char × FieldSpec)) :
    recSize ((name, spec) :: fields) = spec.size + sumSizes (fields.map Prod.snd) := by
  unfold recSize sumSizes
  simp [List.map_map]
  rfl

theorem records_roundtrip (fields : List (List Char × FieldSpec))
    (records : List (List PyVal))
    (hname : ∀ p ∈ fields, p.1 ≠ dfName)
    (hspec : ∀ p ∈ fields, ValidSpec p.2)
    (hrec : ∀ r ∈ records, r.length = fields.length ∧
      ∀ q ∈ (fields.map Prod.snd).zip r, ValidValue q.1 q.2) :
    ∃ bs, encodeRecords (fields.map Prod.snd) records = Except.ok bs ∧
      ∀ extra, recordLoop ((dfName, dfSpec) :: fields) records.length (bs ++ extra)
        = Except.ok records := by
  induction records with
  | nil => exact ⟨[], rfl, fun extra => rfl⟩
  | cons r rs ih =>
      have hr := hrec r (List.mem_cons_self r rs)
      obtain ⟨braw, hfe, hflen, hfdec⟩ := record_roundtrip fields r hr.1 hname hspec hr.2
      obtain ⟨bs, hrecs, hloop⟩ := ih (fun x hx => hrec x (List.mem_cons_of_mem r hx))
      refine ⟨(32 :: braw) ++ bs, ?_, ?_⟩
      · unfold encodeRecords
        have hone : encodeRecord (fields.map Prod.snd) r = Except.ok (32 :: braw) := by
          unfold encodeRecord
          rw [hfe, ok_bind]
        rw [hone, ok_bind, hrecs, ok_bind]
      · intro extra
        have hsize : recSize ((dfName, dfSpec) :: fields) = 1 + sumSizes (fields.map Prod.snd) := by
          rw [recSize_cons]
          rfl
        have hslotlen : (32 :: braw).length = recSize ((dfName, dfSpec) :: fields) := by
          rw [hsize]
          simp [hflen]
          omega
        show recordLoop ((dfName, dfSpec) :: fields) (rs.length + 1) ((32 :: braw) ++ bs ++ extra) = _
        unfold recordLoop
        rw [List.append_assoc]
        rw [if_neg (by
          rw [List.length_append, ← hslotlen]
          omega)]
        have htk : ((32 :: braw) ++ (bs ++ extra)).take (recSize ((dfName, dfSpec) :: fields))
            = 32 :: braw := List.take_left' hslotlen
        have hdr : ((32 :: braw) ++ (bs ++ extra)).drop (recSize ((dfName, dfSpec) :: fields))
            = bs ++ extra := List.drop_left' hslotlen
        simp only [htk, hdr]
        rw [if_neg (by
          show ¬(32 :: braw).take dfSpec.size ≠ [32]
          simp [dfSpec])]
        have hdff : decodeFields ((dfName, dfSpec) :: fields) (32 :: braw)
            = Except.ok r := by
          unfold decodeFields
          rw [if_pos rfl]
          show decodeFields fields ((32 :: braw).drop dfSpec.size) = _
          rw [show ((32 :: braw).drop dfSpec.size) = braw from rfl]
          exact hfdec
        rw [hdff, ok_bind, hloop extra, ok_bind]

theorem packHeader_roundtrip {yr mon day numrec lenheader lenrecord : Nat}
    (hyr : yr < 256) (hmon : mon < 256) (hday : day < 256)
    (hnr : numrec < 4294967296) (hlh : lenheader < 65536) (hlr : lenrecord < 65536) :
    ∃ H, packHeader yr mon day numrec lenheader lenrecord = Except.ok H ∧ H.length = 32 ∧
      ∀ rest, parseHeader (H ++ rest) = Except.ok (numrec, lenheader, rest) := by
  have h3 : packB 3 = Except.ok [3] := by unfold packB; rw [if_pos (by omega)]
  have ha : packB yr = Except.ok [yr] := by unfold packB; rw [if_pos hyr]
  have hb : packB mon = Except.ok [mon] := by unfold packB; rw [if_pos hmon]
  have hc : packB day = Except.ok [day] := by unfold packB; rw [if_pos hday]
  have hr : packLE4 numrec = Except.ok
      [numrec % 256, numrec / 256 % 256, numrec / 65536 % 256, numrec / 16777216] := by
    unfold packLE4
    rw [if_pos hnr]
  have hh : packLE2 lenheader = Except.ok [lenheader % 256, lenheader / 256] := by
    unfold packLE2
    rw [if_pos hlh]
  have hl : packLE2 lenrecord = Except.ok [lenrecord % 256, lenrecord / 256] := by
    unfold packLE2
    rw [if_pos hlr]
  have hH : packHeader yr mon day numrec lenheader lenrecord = Except.ok
      (3 :: yr :: mon :: day :: numrec % 256 :: numrec / 256 % 256 :: numrec / 65536 % 256 ::
        numrec / 16777216 :: lenheader % 256 :: lenheader / 256 :: lenrecord % 256 ::
        lenrecord / 256 :: List.replicate 20 0) := by
    unfold packHeader
    simp only [h3, ha, hb, hc, hr, hh, hl, ok_bind]
    simp
  refine ⟨_, hH, ?_, ?_⟩
  · simp
  · intro rest
    have hlen32 : (3 :: yr :: mon :: day :: numrec % 256 :: numrec / 256 % 256 ::
        numrec / 65536 % 256 :: numrec / 16777216 :: lenheader % 256 :: lenheader / 256 ::
        lenrecord % 256 :: lenrecord / 256 :: List.replicate 20 0).length = 32 := by
      simp
    unfold parseHeader
    rw [if_neg (by rw [List.length_append, hlen32]; omega)]
    have hd32 : ((3 :: yr :: mon :: day :: numrec % 256 :: numrec / 256 % 256 ::
        numrec / 65536 % 256 :: numrec / 16777216 :: lenheader % 256 :: lenheader / 256 ::
        lenrecord % 256 :: lenrecord / 256 :: List.replicate 20 0) ++ rest).drop 32
        = rest := List.drop_left' hlen32
    rw [hd32]
    have hu32 : readU32LE (((3 :: yr :: mon :: day :: numrec % 256 :: numrec / 256 % 256 ::
        numrec / 65536 % 256 :: numrec / 16777216 :: lenheader % 256 :: lenheader / 256 ::
        lenrecord % 256 :: lenrecord / 256 :: List.replicate 20 0) ++ rest).drop 4)
        = numrec := by
      show readU32LE (numrec % 256 :: numrec / 256 % 256 :: numrec / 65536 % 256 ::
        numrec / 16777216 :: lenheader % 256 :: lenheader / 256 :: lenrecord % 256 ::
        lenrecord / 256 :: (List.replicate 20 0 ++ rest)) = numrec
      unfold readU32LE
      simp only [List.getD_cons_zero, List.getD_cons_succ]
      omega
    have hu16 : readU16LE (((3 :: yr :: mon :: day :: numrec % 256 :: numrec / 256 % 256 ::
        numrec / 65536 % 256 :: numrec / 16777216 :: lenheader % 256 :: lenheader / 256 ::
        lenrecord % 256 :: lenrecord / 256 :: List.replicate 20 0) ++ rest).drop 8)
        = lenheader := by
      show readU16LE (lenheader % 256 :: lenheader / 256 :: lenrecord % 256 ::
        lenrecord / 256 :: (List.replicate 20 0 ++ rest)) = lenheader
      unfold readU16LE
      simp only [List.getD_cons_zero, List.getD_cons_succ]
      omega
    rw [hu32, hu16]

theorem numfieldsOf_eq (k : Nat) : numfieldsOf (k * 32 + 33) = k := by
  unfold numfieldsOf
  have hx : ((k * 32 + 33 : Nat) : Int) - 33 = (k : Int) * 32 := by
    push_cast
    ring
  rw [hx, Int.mul_fdiv_cancel _ (by norm_num)]
  simp

theorem typTag_lt_128 {t : Char} (h : t ∈ (['C', 'N', 'D', 'L', 'M'] : List Char)) :
    t.toNat < 128 := by
  fin_cases h <;> decide

/-- Datasets the amended round-trip claim quantifies over: bounds that
keep every struct.pack in range, names of at most 10 NUL-free ascii
characters not equal to the DeletionFlag pseudo-name, valid specs and
value shapes per field (see ValidSpec and ValidValue). -/
def ValidDataset (yr mon day : Nat) (names : List (List Char)) (specs : List FieldSpec)
    (records : List (List PyVal)) : Prop :=
  yr < 256 ∧ mon < 256 ∧ day < 256 ∧
  names.length = specs.length ∧
  records.length < 4294967296 ∧
  specs.length * 32 + 33 < 65536 ∧
  sumSizes specs + 1 < 65536 ∧
  (∀ n ∈ names, n.length ≤ 10 ∧ n ≠ dfName ∧ ∀ c ∈ n, c.toNat < 128 ∧ c.toNat ≠ 0) ∧
  (∀ sp ∈ specs, ValidSpec sp) ∧
  (∀ r ∈ records, r.length = specs.length ∧ ∀ q ∈ specs.zip r, ValidValue q.1 q.2)

theorem dbf_roundtrip (yr mon day : Nat) (names : List (List Char))
    (specs : List FieldSpec) (records : List (List PyVal))
    (h : ValidDataset yr mon day names specs records) :
    ∃ bs, dbfwriter yr mon day names specs records = Except.ok bs ∧
      dbfreader bs = Except.ok (names, specs, records) := by
  obtain ⟨hyr, hmon, hday, hlen, hnr, hlh, hlr, hnames, hspecs, hrecs⟩ := h
  have hplen : (names.zip specs).length = specs.length := by
    rw [List.length_zip, hlen, Nat.min_self]
  have hpfst : (names.zip specs).map Prod.fst = names :=
    List.map_fst_zip names specs (le_of_eq hlen)
  have hpsnd : (names.zip specs).map Prod.snd = specs :=
    List.map_snd_zip names specs (le_of_eq hlen.symm)
  obtain ⟨H, hHpack, hHlen, hHparse⟩ := packHeader_roundtrip hyr hmon hday hnr hlh hlr
  obtain ⟨dbs, hdpack, hdparse⟩ := descriptors_roundtrip (names.zip specs)
    (fun p hp => by
      have hm := List.mem_zip hp
      have hn := hnames p.1 hm.1
      exact ⟨hn.1, hn.2.2⟩)
    (fun p hp => by
      have hm := List.mem_zip hp
      have hs := hspecs p.2 hm.2
      obtain ⟨htm, h1, h255, hd255, _, _⟩ := hs
      exact ⟨typTag_lt_128 htm, by omega, by omega⟩)
  obtain ⟨rbs, hrpack, hrloop⟩ := records_roundtrip (names.zip specs) records
    (fun p hp => (hnames p.1 (List.mem_zip hp).1).2.1)
    (fun p hp => hspecs p.2 (List.mem_zip hp).2)
    (fun r hr => by
      have hh := hrecs r hr
      refine ⟨by rw [hplen]; exact hh.1, ?_⟩
      rw [hpsnd]
      exact hh.2)
  have hrpack' : encodeRecords specs records = Except.ok rbs := by
    rw [← hpsnd]
    exact hrpack
  have hdparse2 : ∀ rest, parseDescriptors specs.length (dbs ++ rest)
      = Except.ok (names.zip specs, rest) := fun rest => by
    rw [← hplen]
    exact hdparse rest
  refine ⟨H ++ dbs ++ [13] ++ rbs ++ [26], ?_, ?_⟩
  · unfold dbfwriter
    simp only [hHpack, hdpack, hrpack', ok_bind]
  · have hassoc : H ++ dbs ++ [13] ++ rbs ++ [26]
        = H ++ (dbs ++ (13 :: (rbs ++ [26]))) := by
      simp [List.append_assoc]
    rw [hassoc]
    unfold dbfreader
    simp only [hHparse (dbs ++ (13 :: (rbs ++ [26]))), ok_bind, numfieldsOf_eq,
      hdparse2 (13 :: (rbs ++ [26])),
      show checkTerminator (13 :: (rbs ++ [26])) = Except.ok (rbs ++ [26]) from rfl,
      hrloop [26], hpfst, hpsnd]

theorem bind_ok_inv {ε α β : Type} {e : Except ε α} {f : α → Except ε β} {b : β}
    (h : (e >>= f) = Except.ok b) : ∃ a, e = Except.ok a ∧ f a = Except.ok b := by
  cases e with
  | ok a => exact ⟨a, rfl, h⟩
  | error err => exact Except.noConfusion h

theorem encodeAscii_ok_inv {s : List Char} {bs : Bytes} (h : encodeAscii s = Except.ok bs) :
    bs = s.map Char.toNat ∧ ∀ c ∈ s, c.toNat < 128 := by
  induction s generalizing bs with
  | nil =>
      have hb : ([] : Bytes) = bs := Except.ok.inj h
      exact ⟨by simp [← hb], by simp⟩
  | cons c t ih =>
      unfold encodeAscii at h
      split at h
      · obtain ⟨a, ha, hfa⟩ := bind_ok_inv h
        obtain ⟨h1, h2⟩ := ih ha
        have hb : bs = c.toNat :: a := (Except.ok.inj hfa).symm
        refine ⟨by simp [hb, h1], ?_⟩
        intro x hx
        rcases List.mem_cons.mp hx with rfl | hx
        · assumption
        · exact h2 x hx
      · exact Except.noConfusion h

theorem parseDescriptors_length :
    ∀ (n : Nat) (bs : Bytes) (fields : List (List Char × FieldSpec)) (r : Bytes),
      parseDescriptors n bs = Except.ok (fields, r) → fields.length = n := by
  intro n
  induction n with
  | zero =>
      intro bs fields r h
      unfold parseDescriptors at h
      have h2 := Except.ok.inj h
      have h1 : ([] : List (List Char × FieldSpec)) = fields := congrArg Prod.fst h2
      rw [← h1]
      rfl
  | succ n ih =>
      intro bs fields r h
      unfold parseDescriptors at h
      split at h
      · exact Except.noConfusion h
      · obtain ⟨a1, ha1, h⟩ := bind_ok_inv h
        obtain ⟨a2, ha2, h⟩ := bind_ok_inv h
        obtain ⟨a3, ha3, h⟩ := bind_ok_inv h
        obtain ⟨p, rest⟩ := a3
        have h2 := Except.ok.inj h
        have hf : ((removeNuls a1, (⟨a2, (bs.take 32).getD 16 0,
            (bs.take 32).getD 17 0⟩ : FieldSpec)) :: p) = fields := congrArg Prod.fst h2
        rw [← hf]
        simp [ih _ _ _ ha3]

/-- C2: the specification table says a logical byte in NnFf decodes to
False and any unrecognised byte to Unknown.  The source (line 60) tests
the raw bytes, not the decoded str, against the str NnFf, which in
Python 3 raises TypeError, so only the YyTt outcomes are reachable; the
dead F and Unknown branches and the docstring show the False and
Unknown outcomes were intended.  Byte 0x6E (n) and byte 0x3F (?) both
raise instead of decoding. -/
theorem C2_logical_codeBug :
    decodeLogical [110] = Except.error PyErr.typeError
    ∧ decodeLogical [63] = Except.error PyErr.typeError
    ∧ decodeLogical [89] = Except.ok (PyVal.text ['T'])
    ∧ decodeLogical [116] = Except.ok (PyVal.text ['T']) := by
  refine ⟨?_, ?_, ?_, ?_⟩ <;> decide

/-- C3 counterexample: a header length of 34 violates
(header_length - 33) % 32 == 0, yet dbfreader succeeds (field count
floor((34-33)/32) = 0, the terminator follows, zero records): no
MalformedHeader is raised. -/
theorem C3_counterexample :
    (34 - 33) % 32 ≠ 0
    ∧ dbfreader ([0, 0, 0, 0, 0, 0, 0, 0, 34, 0] ++ List.replicate 22 0 ++ [13])
        = Except.ok ([], [], []) := by
  refine ⟨by decide, by decide⟩

/-- C3 (amended): dbfreader performs no divisibility check on the
decoded header length; it always proceeds with
field count = floor((header_length - 33) / 32) fields (Python floor
division, clamped at zero by the empty range), whatever the remainder
is.  Whenever decoding succeeds, the yielded name and spec rows have
exactly that many entries, where header_length is the little-endian
16-bit value at byte offset 8. -/
theorem C3_amended_floor_fieldcount (bs : Bytes) (names : List (List Char))
    (specs : List FieldSpec) (recs : List (List PyVal))
    (h : dbfreader bs = Except.ok (names, specs, recs)) :
    names.length = numfieldsOf (readU16LE (bs.drop 8))
    ∧ specs.length = numfieldsOf (readU16LE (bs.drop 8)) := by
  unfold dbfreader at h
  obtain ⟨t, ht, h⟩ := bind_ok_inv h
  obtain ⟨numrec, lenheader, r1⟩ := t
  have hlh : lenheader = readU16LE (bs.drop 8) := by
    unfold parseHeader at ht
    split at ht
    · exact Except.noConfusion ht
    · have := Except.ok.inj ht
      have h2 := congrArg (fun q => q.2.1) this
      simpa using h2.symm
  obtain ⟨t2, ht2, h⟩ := bind_ok_inv h
  obtain ⟨fields, r2⟩ := t2
  obtain ⟨r3, _, h⟩ := bind_ok_inv h
  obtain ⟨rcs, _, h⟩ := bind_ok_inv h
  have hout := Except.ok.inj h
  have hflen := parseDescriptors_length _ _ _ _ ht2
  have hn : names = fields.map Prod.fst := by
    have := congrArg (fun q => q.1) hout
    simpa using this.symm
  have hsp : specs = fields.map Prod.snd := by
    have := congrArg (fun q => q.2.1) hout
    simpa using this.symm
  rw [hn, hsp, ← hlh]
  constructor <;> simpa using hflen

/-- Witness for the amended C3 theorem at a concrete stream with
header length 34 (remainder 1): decoding succeeds and yields
floor((34-33)/32) = 0 fields. -/
theorem C3_amended_floor_fieldcount_witness :
    dbfreader ([0, 0, 0, 0, 0, 0, 0, 0, 34, 0] ++ List.replicate 22 0 ++ [13])
      = Except.ok ([], [], [])
    ∧ ([] : List (List Char)).length = numfieldsOf
        (readU16LE ((([0, 0, 0, 0, 0, 0, 0, 0, 34, 0] ++ List.replicate 22 0 ++ [13]) : Bytes).drop 8)) :=
  ⟨by decide, (C3_amended_floor_fieldcount _ [] [] [] (by decide)).1⟩

/-- C4 counterexample: a 12-byte field name does not make dbfwriter
fail; the descriptor is written with the name silently cut to its first
11 bytes (struct.pack with format 11s truncates).  Bytes 32 to 42 of
the output are the ascii codes of ABCDEFGHIJK. -/
theorem C4_counterexample :
    (['A', 'B', 'C', 'D', 'E', 'F', 'G', 'H', 'I', 'J', 'K', 'L'] : List Char).length = 12
    ∧ (dbfwriter 126 3 9 [['A', 'B', 'C', 'D', 'E', 'F', 'G', 'H', 'I', 'J', 'K', 'L']]
        [⟨'C', 1, 0⟩] []).map (fun bs => (bs.drop 32).take 11)
      = Except.ok [65, 66, 67, 68, 69, 70, 71, 72, 73, 74, 75] := by
  refine ⟨by decide, by decide⟩

/-- C4 (amended): for every ascii name, packDescriptor never fails on
the name length; the 11-byte name field of the descriptor is the ascii
bytes of the name NUL-padded to 11 and then cut to 11 by the fixed-width
pack, so a name of at most 10 bytes is written NUL-padded and a longer
name is silently truncated to its first 11 bytes; the rest of the
32-byte layout is one tag byte, 4 zero bytes, the length byte, the
decimal-count byte and 14 zero bytes. -/
theorem C4_amended_name_truncated (name : List Char) (spec : FieldSpec)
    (hascii : ∀ c ∈ name, c.toNat < 128) (htyp : spec.typ.toNat < 128)
    (hsize : spec.size < 256) (hdeci : spec.deci < 256) :
    packDescriptor name spec = Except.ok
      ((name.map Char.toNat ++ List.replicate (11 - name.length) 0).take 11
        ++ spec.typ.toNat :: (List.replicate 4 0
          ++ spec.size :: spec.deci :: List.replicate 14 0)) := by
  have hpad : ∀ c ∈ name ++ List.replicate (11 - name.length) (Char.ofNat 0), c.toNat < 128 := by
    intro c hc
    rcases List.mem_append.mp hc with hc | hc
    · exact hascii c hc
    · rw [List.eq_of_mem_replicate hc]; decide
  have hnb : encodeAscii (ljustNul 11 name) = Except.ok
      ((name ++ List.replicate (11 - name.length) (Char.ofNat 0)).map Char.toNat) :=
    encodeAscii_eq_ok hpad
  have hmap : (name ++ List.replicate (11 - name.length) (Char.ofNat 0)).map Char.toNat
      = name.map Char.toNat ++ List.replicate (11 - name.length) 0 := by
    rw [List.map_append, List.map_replicate]
    rfl
  have hnblen : ((name ++ List.replicate (11 - name.length) (Char.ofNat 0)).map Char.toNat).length
      = name.length + (11 - name.length) := by
    rw [List.length_map, List.length_append, List.length_replicate]
  have htb : packC spec.typ = Except.ok [spec.typ.toNat] := by
    unfold packC
    rw [if_pos htyp]
  have hsb : packB spec.size = Except.ok [spec.size] := by
    unfold packB
    rw [if_pos hsize]
  have hdb : packB spec.deci = Except.ok [spec.deci] := by
    unfold packB
    rw [if_pos hdeci]
  unfold packDescriptor
  rw [hnb]
  simp only [htb, hsb, hdb, ok_bind]
  rw [hnblen, hmap]
  rw [show 11 - (name.length + (11 - name.length)) = 0 from by omega]
  simp [List.append_assoc]

/-- Witness for the amended C4 theorem: a 12-character ascii name is
accepted and truncated to ABCDEFGHIJK in the descriptor. -/
theorem C4_amended_name_truncated_witness :
    packDescriptor ['A', 'B', 'C', 'D', 'E', 'F', 'G', 'H', 'I', 'J', 'K', 'L'] ⟨'C', 1, 0⟩
      = Except.ok
        (((['A', 'B', 'C', 'D', 'E', 'F', 'G', 'H', 'I', 'J', 'K', 'L'] : List Char).map
              Char.toNat ++ List.replicate
              (11 - (['A', 'B', 'C', 'D', 'E', 'F', 'G', 'H', 'I', 'J', 'K', 'L'] :
                List Char).length) 0).take 11
          ++ (⟨'C', 1, 0⟩ : FieldSpec).typ.toNat :: (List.replicate 4 0
            ++ (⟨'C', 1, 0⟩ : FieldSpec).size :: (⟨'C', 1, 0⟩ : FieldSpec).deci ::
              List.replicate 14 0)) :=
  C4_amended_name_truncated ['A', 'B', 'C', 'D', 'E', 'F', 'G', 'H', 'I', 'J', 'K', 'L']
    ⟨'C', 1, 0⟩ (by decide) (by decide) (by decide) (by decide)

/-- C6: a record slot whose deletion-flag byte (its first byte, sliced
as the inserted DeletionFlag field of size 1) is anything other than
0x20 is skipped without error, and the loop dbfreader runs continues
with the next slot: the result on the remaining iterations is
unchanged. -/
theorem C6_deleted_record_skipped (fields : List (List Char × FieldSpec)) (n : Nat)
    (b : Nat) (body rest : Bytes)
    (hlen : (b :: body).length = recSize ((dfName, dfSpec) :: fields))
    (hb : b ≠ 32) :
    recordLoop ((dfName, dfSpec) :: fields) (n + 1) ((b :: body) ++ rest)
      = recordLoop ((dfName, dfSpec) :: fields) n rest := by
  conv_lhs => unfold recordLoop
  rw [if_neg (by rw [List.length_append, ← hlen]; omega)]
  have htk : ((b :: body) ++ rest).take (recSize ((dfName, dfSpec) :: fields)) = b :: body :=
    List.take_left' hlen
  have hdr : ((b :: body) ++ rest).drop (recSize ((dfName, dfSpec) :: fields)) = rest :=
    List.drop_left' hlen
  simp only [htk, hdr]
  rw [if_pos (by
    show (b :: body).take dfSpec.size ≠ [32]
    rw [show (b :: body).take dfSpec.size = [b] from rfl]
    simp [hb])]

/-- Witness for C6 at a concrete slot: flag byte 0x2A (an asterisk), an
empty field list, one iteration: the slot is dropped and the loop
returns the empty record list without error. -/
theorem C6_deleted_record_skipped_witness :
    recordLoop ((dfName, dfSpec) :: []) 1 ([42] ++ []) = Except.ok []
    ∧ (42 : Nat) ≠ 32 :=
  ⟨by
    rw [C6_deleted_record_skipped [] 0 42 [] [] (by decide) (by decide)]
    rfl,
   by decide⟩

/-- C7: after the per-type rule produces the raw field bytes, dbfwriter
accepts them only when their count equals the declared length and fails
with the width assert (FieldValueTooWide) otherwise; numeric raw bytes
always contain the full value text as a suffix (right-justification
never truncates), a logical encoding is exactly one byte whenever the
first character of the value text is ASCII (the scope in which the
single-character upper map is faithful), and a date encoding is exactly
eight bytes for calendar dates with a four-digit year (below 1000 the
platform strftime writes the year unpadded) - none of them is cut to
fit the declared length. -/
theorem C7_exact_width_check (spec : FieldSpec) (v : PyVal) (raw : Bytes)
    (h : encodeFieldRaw spec v = Except.ok raw) :
    (raw.length ≠ spec.size → encodeField spec v = Except.error PyErr.fieldValueTooWide)
    ∧ (raw.length = spec.size → encodeField spec v = Except.ok raw)
    ∧ (spec.typ = 'N' → ∃ s, encodeAscii (pyStrOfVal v) = Except.ok s ∧ s <:+ raw)
    ∧ (spec.typ = 'L' → ∀ c t, pyStrOfVal v = c :: t → c.toNat < 128 → raw.length = 1)
    ∧ (spec.typ = 'D' → ∀ y m d, v = PyVal.date y m d → 1000 ≤ y → y ≤ 9999 →
        m ≤ 99 → d ≤ 99 → raw.length = 8) := by
  refine ⟨?_, ?_, ?_, ?_, ?_⟩
  · intro hne
    unfold encodeField
    rw [h, ok_bind, if_neg hne]
  · intro heq
    unfold encodeField
    rw [h, ok_bind, if_pos heq]
  · intro htyp
    unfold encodeFieldRaw at h
    rw [if_pos htyp] at h
    obtain ⟨hraw, hascii⟩ := encodeAscii_ok_inv h
    have hs : ∀ c ∈ pyStrOfVal v, c.toNat < 128 := by
      intro c hc
      exact hascii c (List.mem_append.mpr (Or.inr hc))
    refine ⟨(pyStrOfVal v).map Char.toNat, encodeAscii_eq_ok hs, ?_⟩
    rw [hraw]
    unfold rjustSp
    rw [List.map_append]
    exact List.suffix_append _ _
  · intro htyp c t hstr _
    have hN : spec.typ ≠ 'N' := by rw [htyp]; decide
    have hD : spec.typ ≠ 'D' := by rw [htyp]; decide
    unfold encodeFieldRaw at h
    rw [if_neg hN, if_neg hD, if_pos htyp, hstr] at h
    obtain ⟨hraw, _⟩ := encodeAscii_ok_inv h
    rw [hraw]
    rfl
  · intro htyp y m d hv hy0 hy hm hd
    subst hv
    have hN : spec.typ ≠ 'N' := by rw [htyp]; decide
    unfold encodeFieldRaw at h
    rw [if_neg hN, if_pos htyp] at h
    obtain ⟨hraw, _⟩ := encodeAscii_ok_inv h
    rw [hraw, List.length_map]
    unfold strftimeYmd
    rw [List.length_append, List.length_append, natStr_length_four hy0 hy,
      padZ_length (natStr_length_le (by omega) (by omega)),
      padZ_length (natStr_length_le (by omega) (by omega))]

/-- Witness for C7: a numeric field of declared length 2 holding the
integer 123; the raw encoding is the three bytes of 123, so the width
check fails with FieldValueTooWide, and the full text is a suffix of
the raw bytes. -/
theorem C7_exact_width_check_witness :
    encodeFieldRaw ⟨'N', 2, 0⟩ (PyVal.int 123) = Except.ok [49, 50, 51]
    ∧ encodeField ⟨'N', 2, 0⟩ (PyVal.int 123) = Except.error PyErr.fieldValueTooWide :=
  ⟨by decide,
    (C7_exact_width_check ⟨'N', 2, 0⟩ (PyVal.int 123) [49, 50, 51] (by decide)).1
      (by decide)⟩

/-- C8: for a field whose tag is not N, D or L (the text branch, which
also covers C and M), a value whose text form is at least as long as
the declared length is truncated to exactly that length, and a shorter
one is left-justified and padded with trailing spaces to exactly that
length; both pass the width check. -/
theorem C8_text_truncate_pad (spec : FieldSpec) (s : List Char)
    (hN : spec.typ ≠ 'N') (hD : spec.typ ≠ 'D') (hL : spec.typ ≠ 'L')
    (hascii : ∀ c ∈ s, c.toNat < 128) :
    (spec.size ≤ s.length →
      encodeField spec (PyVal.text s) = Except.ok ((s.take spec.size).map Char.toNat))
    ∧ (s.length < spec.size →
      encodeField spec (PyVal.text s)
        = Except.ok ((s ++ List.replicate (spec.size - s.length) ' ').map Char.toNat)) := by
  have hraw : encodeFieldRaw spec (PyVal.text s)
      = encodeAscii (ljustSp spec.size (s.take spec.size)) := by
    unfold encodeFieldRaw
    rw [if_neg hN, if_neg hD, if_neg hL]
    rfl
  have hasc2 : ∀ c ∈ ljustSp spec.size (s.take spec.size), c.toNat < 128 := by
    intro c hc
    unfold ljustSp at hc
    rcases List.mem_append.mp hc with hc | hc
    · exact hascii c (List.take_subset _ _ hc)
    · rw [List.eq_of_mem_replicate hc]; decide
  constructor
  · intro hge
    have htk : (s.take spec.size).length = spec.size := by
      rw [List.length_take]
      omega
    have hlj : ljustSp spec.size (s.take spec.size) = s.take spec.size := by
      unfold ljustSp
      rw [htk]
      simp
    unfold encodeField
    rw [hraw, hlj, encodeAscii_eq_ok (fun c hc => hascii c (List.take_subset _ _ hc)), ok_bind,
      if_pos (by rw [List.length_map, htk])]
  · intro hlt
    have htk : s.take spec.size = s := List.take_of_length_le (by omega)
    have hlj : ljustSp spec.size (s.take spec.size)
        = s ++ List.replicate (spec.size - s.length) ' ' := by
      unfold ljustSp
      rw [htk]
    unfold encodeField
    rw [hraw, hlj, encodeAscii_eq_ok (by
      intro c hc
      rcases List.mem_append.mp hc with hc | hc
      · exact hascii c hc
      · rw [List.eq_of_mem_replicate hc]; decide), ok_bind,
      if_pos (by
        rw [List.length_map, List.length_append, List.length_replicate]
        omega)]

/-- Witness for C8, the example of the spec: a C field of length 10
holding Ann encodes as Ann followed by seven spaces, and a C field of
length 2 holding Ann truncates to An. -/
theorem C8_text_truncate_pad_witness :
    encodeField ⟨'C', 10, 0⟩ (PyVal.text ['A', 'n', 'n'])
      = Except.ok [65, 110, 110, 32, 32, 32, 32, 32, 32, 32]
    ∧ encodeField ⟨'C', 2, 0⟩ (PyVal.text ['A', 'n', 'n']) = Except.ok [65, 110] := by
  constructor
  · have := (C8_text_truncate_pad ⟨'C', 10, 0⟩ ['A', 'n', 'n'] (by decide) (by decide)
      (by decide) (by decide)).2 (by decide)
    rw [this]
    decide
  · have := (C8_text_truncate_pad ⟨'C', 2, 0⟩ ['A', 'n', 'n'] (by decide) (by decide)
      (by decide) (by decide)).1 (by decide)
    rw [this]
    decide

/-- C10: for a logical field the writer emits exactly one byte, the
uppercased first character of the value text, whatever the declared
length is; hence any logical field whose declared length is not 1
always fails the exact-width check with FieldValueTooWide. -/
theorem C10_logical_one_byte (size deci : Nat) (v : PyVal) (c : Char) (t : List Char)
    (hstr : pyStrOfVal v = c :: t) (hascii : (pyUpper c).toNat < 128) :
    encodeFieldRaw ⟨'L', size, deci⟩ v = Except.ok [(pyUpper c).toNat]
    ∧ (size ≠ 1 → encodeField ⟨'L', size, deci⟩ v = Except.error PyErr.fieldValueTooWide) := by
  have h1 : encodeFieldRaw ⟨'L', size, deci⟩ v = Except.ok [(pyUpper c).toNat] := by
    unfold encodeFieldRaw
    rw [if_neg (show ¬('L' : Char) = 'N' by decide), if_neg (show ¬('L' : Char) = 'D' by decide),
      if_pos rfl, hstr]
    exact encodeAscii_eq_ok (by
      intro x hx
      rcases List.mem_singleton.mp hx with rfl
      exact hascii)
  refine ⟨h1, fun hsz => ?_⟩
  unfold encodeField
  rw [h1, ok_bind, if_neg (by simpa using Ne.symm hsz)]

/-- Witness for C10: the value f in a logical field of declared length
2 is encoded as the single byte F (0x46) and the record encoding fails
with FieldValueTooWide. -/
theorem C10_logical_one_byte_witness :
    encodeFieldRaw ⟨'L', 2, 0⟩ (PyVal.text ['f']) = Except.ok [70]
    ∧ encodeField ⟨'L', 2, 0⟩ (PyVal.text ['f']) = Except.error PyErr.fieldValueTooWide :=
  ⟨(C10_logical_one_byte 2 0 (PyVal.text ['f']) 'f' [] (by decide) (by decide)).1,
    (C10_logical_one_byte 2 0 (PyVal.text ['f']) 'f' [] (by decide) (by decide)).2 (by decide)⟩

/-- C9: after the field descriptors, dbfreader reads exactly one byte;
if the stream is exhausted or that byte is not 0x0D the whole decode
fails with the terminator assert (MalformedHeader); if it is 0x0D,
decoding continues into the record slots on the bytes after that single
byte. -/
theorem C9_terminator_checked (bs : Bytes) (numrec lenheader : Nat) (r1 : Bytes)
    (fields : List (List Char × FieldSpec)) (r2 : Bytes)
    (hh : parseHeader bs = Except.ok (numrec, lenheader, r1))
    (hd : parseDescriptors (numfieldsOf lenheader) r1 = Except.ok (fields, r2)) :
    (r2 = [] → dbfreader bs = Except.error PyErr.malformedHeader)
    ∧ (∀ b r3, r2 = b :: r3 → b ≠ 13 → dbfreader bs = Except.error PyErr.malformedHeader)
    ∧ (∀ r3, r2 = 13 :: r3 → dbfreader bs
        = (recordLoop ((dfName, dfSpec) :: fields) numrec r3 >>= fun recs =>
            Except.ok (fields.map Prod.fst, fields.map Prod.snd, recs))) := by
  refine ⟨?_, ?_, ?_⟩
  · intro hr2
    subst hr2
    unfold dbfreader
    simp only [hh, hd, ok_bind]
    rfl
  · intro b r3 hr2 hb
    subst hr2
    unfold dbfreader
    simp only [hh, hd, ok_bind]
    rw [show checkTerminator (b :: r3)
      = (if b = 13 then Except.ok r3 else Except.error PyErr.malformedHeader) from rfl]
    rw [if_neg hb]
    rfl
  · intro r3 hr2
    subst hr2
    unfold dbfreader
    simp only [hh, hd, ok_bind]
    rw [show checkTerminator (13 :: r3) = Except.ok r3 from rfl, ok_bind]

/-- Witness for C9 at a concrete stream: header length 33 (zero
fields) followed by the byte 0x63 instead of 0x0D; dbfreader fails
with MalformedHeader. -/
theorem C9_terminator_checked_witness :
    dbfreader ([0, 0, 0, 0, 0, 0, 0, 0, 33, 0] ++ List.replicate 22 0 ++ [99])
      = Except.error PyErr.malformedHeader :=
  (C9_terminator_checked ([0, 0, 0, 0, 0, 0, 0, 0, 33, 0] ++ List.replicate 22 0 ++ [99])
      0 33 [99] [] [99] (by decide) (by decide)).2.1 99 [] rfl (by decide)

/-- C5 counterexample: the claim says a nonempty numeric value with
decimal_count = k > 0 decodes to a decimal with scale k; but the scale
of the decoded Decimal comes from the text alone: the bytes 1.5 in a
field with decimal_count 2 decode to the decimal 15 * 10 ^ (-1), whose
scale is 1, not 2. -/
theorem C5_counterexample :
    decodeNumeric 2 [49, 46, 53] = Except.ok (PyVal.dec ⟨false, 15, -1⟩)
    ∧ (⟨false, 15, -1⟩ : PyDecimal).exponent ≠ -2 := by
  refine ⟨by decide, by decide⟩

/-- C5 (amended): after removing NULs and stripping leading whitespace,
an empty or whitespace-only numeric field decodes to the integer 0; a
nonempty value with decimal_count = 0 consisting of decimal digits
decodes to the exact integer value of those digits; and a nonempty
value with decimal_count = k > 0 of the form digits-point-digits
decodes to the exact arbitrary-precision decimal whose coefficient is
the digit value and whose scale is the number of fractional digits of
the text - not necessarily k - with no floating point anywhere. -/
theorem C5_amended_numeric_decode (deci : Nat) (raw : Bytes)
    (hascii : ∀ b ∈ raw, b < 128) :
    (pyLstrip (removeNuls (raw.map Char.ofNat)) = [] →
      decodeNumeric deci raw = Except.ok (PyVal.int 0))
    ∧ (∀ s, pyLstrip (removeNuls (raw.map Char.ofNat)) = s → s ≠ [] → deci = 0 →
        (∀ c ∈ s, isDigitCh c = true) →
        decodeNumeric deci raw = Except.ok (PyVal.int (digitsVal s)))
    ∧ (∀ ip fp, deci ≠ 0 →
        pyLstrip (removeNuls (raw.map Char.ofNat)) = ip ++ '.' :: fp →
        (∀ c ∈ ip, isDigitCh c = true) → (∀ c ∈ fp, isDigitCh c = true) →
        ¬(ip = [] ∧ fp = []) →
        decodeNumeric deci raw
          = Except.ok (PyVal.dec ⟨false, digitsVal (ip ++ fp), -(fp.length : Int)⟩)) := by
  have hdec : decodeAscii raw = Except.ok (raw.map Char.ofNat) := decodeAscii_eq_ok hascii
  refine ⟨?_, ?_, ?_⟩
  · intro hempty
    unfold decodeNumeric
    rw [hdec, ok_bind]
    simp only [hempty]
    simp
  · intro s hs hne hdeci hdig
    subst hdeci
    unfold decodeNumeric
    rw [hdec, ok_bind]
    simp only [hs]
    rw [if_neg hne, if_neg (by simp), parseInt_digits hne hdig, ok_bind]
  · intro ip fp hdeci hs hip hfp hne
    unfold decodeNumeric
    rw [hdec, ok_bind]
    simp only [hs]
    rw [if_neg (by
      intro hnil
      rcases List.append_eq_nil.mp hnil with ⟨_, h2⟩
      exact List.noConfusion h2), if_pos hdeci]
    have hparse : parseDecimalText (ip ++ '.' :: fp)
        = Except.ok ⟨false, digitsVal (ip ++ fp), -(fp.length : Int)⟩ := by
      have hnw : ∀ c ∈ ip ++ '.' :: fp, isWsCh c = false := by
        intro c hc
        rcases List.mem_append.mp hc with hc | hc
        · exact digit_not_ws (hip c hc)
        · rcases List.mem_cons.mp hc with rfl | hc
          · decide
          · exact digit_not_ws (hfp c hc)
      unfold parseDecimalText
      rw [pyStrip_eq_self hnw]
      cases hip2 : ip with
      | nil =>
          subst hip2
          show (if ('.' : Char) = '-' then parseDecBody true fp
            else if ('.' : Char) = '+' then parseDecBody false fp
            else parseDecBody false ('.' :: fp)) = _
          rw [if_neg (by decide), if_neg (by decide)]
          have := parseDecBody_dot false [] fp (by simp) hfp (by
            intro hand
            exact hne ⟨rfl, hand.2⟩)
          simpa using this
      | cons c0 t0 =>
          subst hip2
          have hc0 : isDigitCh c0 = true := hip c0 (List.mem_cons_self _ _)
          show (if c0 = '-' then parseDecBody true (t0 ++ '.' :: fp)
            else if c0 = '+' then parseDecBody false (t0 ++ '.' :: fp)
            else parseDecBody false (c0 :: (t0 ++ '.' :: fp))) = _
          rw [if_neg (by intro hcm; rw [hcm] at hc0; exact absurd hc0 (by decide)),
            if_neg (by intro hcp; rw [hcp] at hc0; exact absurd hc0 (by decide))]
          exact parseDecBody_dot false (c0 :: t0) fp hip hfp (by simp)
    rw [hparse, ok_bind]

/-- Witness for the amended C5 theorem: the bytes 1.5 with
decimal_count 2 decode to the exact decimal with coefficient 15 and one
fractional digit, the bytes space-7 with decimal_count 0 decode to the
exact integer 7, and the single separator byte 0x1C - whitespace for
the Python str.lstrip - decodes to the integer 0. -/
theorem C5_amended_numeric_decode_witness :
    decodeNumeric 2 [49, 46, 53] = Except.ok (PyVal.dec
      ⟨false, digitsVal (['1'] ++ ['5']), -(((['5'] : List Char).length : Int))⟩)
    ∧ decodeNumeric 0 [32, 55] = Except.ok (PyVal.int (digitsVal ['7']))
    ∧ decodeNumeric 0 [28] = Except.ok (PyVal.int 0) :=
  ⟨(C5_amended_numeric_decode 2 [49, 46, 53] (by decide)).2.2 ['1'] ['5']
      (by decide) (by decide) (by decide) (by decide) (by decide),
    (C5_amended_numeric_decode 0 [32, 55] (by decide)).2.1 ['7']
      (by decide) (by decide) rfl (by decide),
    (C5_amended_numeric_decode 0 [28] (by decide)).1 (by decide)⟩

/-- C1 counterexample: the dataset with one text field of length 2 and
the single record holding the two-character value x-space respects the
field-width invariants, yet the write-then-read round trip returns the
one-character value x, because the reader strips text fields; the
record sequence is not reproduced. -/
theorem C1_counterexample :
    (dbfwriter 126 3 9 [['A']] [⟨'C', 2, 0⟩] [[PyVal.text ['x', ' ']]]).bind dbfreader
      = Except.ok ([['A']], [⟨'C', 2, 0⟩], [[PyVal.text ['x']]])
    ∧ [[PyVal.text ['x']]] ≠ [[PyVal.text ['x', ' ']]] := by
  refine ⟨by decide, by decide⟩

/-- C1 (amended): the write-then-read round trip reproduces the names,
the specs and the record sequence exactly for every dataset in
ValidDataset: field-width invariants plus the restrictions the source
imposes - tags in C, N, D, L, M (the float tag is excluded: its decode
path goes through IEEE floats), values typed to match the tag and the
decimal count, dates with four-digit years, logical values exactly the
one-character text T (any other logical value is changed or makes the
reader raise), and text values without leading or trailing whitespace
(the reader strips text fields). -/
theorem C1_amended_roundtrip (yr mon day : Nat) (names : List (List Char))
    (specs : List FieldSpec) (records : List (List PyVal))
    (h : ValidDataset yr mon day names specs records) :
    ∃ bs, dbfwriter yr mon day names specs records = Except.ok bs ∧
      dbfreader bs = Except.ok (names, specs, records) :=
  dbf_roundtrip yr mon day names specs records h

/-- Witness for the amended C1 theorem at the example dataset of the
spec: schema ID (N 5 0), NAME (C 10 0) and the single record
(7, Ann) round-trips exactly. -/
theorem C1_amended_roundtrip_witness :
    ValidDataset 126 3 9 [['I', 'D'], ['N', 'A', 'M', 'E']]
      [⟨'N', 5, 0⟩, ⟨'C', 10, 0⟩] [[PyVal.int 7, PyVal.text ['A', 'n', 'n']]]
    ∧ ∃ bs, dbfwriter 126 3 9 [['I', 'D'], ['N', 'A', 'M', 'E']]
        [⟨'N', 5, 0⟩, ⟨'C', 10, 0⟩] [[PyVal.int 7, PyVal.text ['A', 'n', 'n']]]
        = Except.ok bs ∧
      dbfreader bs = Except.ok ([['I', 'D'], ['N', 'A', 'M', 'E']],
        [⟨'N', 5, 0⟩, ⟨'C', 10, 0⟩], [[PyVal.int 7, PyVal.text ['A', 'n', 'n']]]) := by
  have hvd : ValidDataset 126 3 9 [['I', 'D'], ['N', 'A', 'M', 'E']]
      [⟨'N', 5, 0⟩, ⟨'C', 10, 0⟩] [[PyVal.int 7, PyVal.text ['A', 'n', 'n']]] := by
    refine ⟨by decide, by decide, by decide, by decide, by decide, by decide, by decide,
      by decide, by decide, ?_⟩
    intro r hr
    rcases List.mem_singleton.mp hr with rfl
    refine ⟨by decide, ?_⟩
    intro q hq
    have hq2 : q = (⟨'N', 5, 0⟩, PyVal.int 7)
        ∨ q = (⟨'C', 10, 0⟩, PyVal.text ['A', 'n', 'n']) := by
      rcases List.mem_cons.mp hq with h1 | h1
      · exact Or.inl h1
      · rcases List.mem_cons.mp h1 with h2 | h2
        · exact Or.inr h2
        · simp at h2
    rcases hq2 with rfl | rfl
    · exact Or.inl ⟨rfl, rfl, 7, rfl, by decide⟩
    · exact Or.inr (Or.inr (Or.inr (Or.inr ⟨by decide, by decide, by decide, by decide,
        ['A', 'n', 'n'], rfl, by decide, by decide, by decide, by decide⟩)))
  exact ⟨hvd, C1_amended_roundtrip 126 3 9 _ _ _ hvd⟩
